import Mathlib

/-!
# Verification of the KnowTeX text-to-graph extraction pipeline

Shallow embedding of `src/KnowTeX.py`: taxonomy with alias matching,
directive extraction (`\label`, `\uses`, `\proves`), the structural walker
`parse_latex_structure`, graph assembly `build_graph`, chapter slicing
(`find_chapter_ranges` plus the slicing in `App.scan`), and project
expansion `load_and_expand`.

Python strings are modelled as `List Char`.  The LaTeX node list produced
by the external `pylatexenc.LatexWalker` is modelled by the mutual
inductive `LNode`/`LForest`: an environment node carries its environment
name, its verbatim source text (what `latex_verbatim()` returns) and its
children; every other kind of node only carries its children (macro and
character nodes have none).
-/

namespace KnowTeX

/-- Python `str.isspace` restricted to the ASCII whitespace characters
(sufficient for the texts considered here). -/
def pySpace (c : Char) : Bool :=
  c = ' ' || c = '\t' || c = '\n' || c = '\r' || c = '\x0b' || c = '\x0c'

/-- Python `str.strip()`: drop leading and trailing whitespace. -/
def pyStrip (s : List Char) : List Char :=
  ((s.dropWhile pySpace).reverse.dropWhile pySpace).reverse

/-- Python `str.split(",")`. -/
def splitComma : List Char → List (List Char)
  | [] => [[]]
  | c :: cs =>
    if c = ',' then [] :: splitComma cs
    else match splitComma cs with
      | [] => [[c]]
      | g :: gs => (c :: g) :: gs

/-- Decimal digits, most significant first, driven by a fuel argument so the
definition is structural; `n` itself always bounds the number of divisions
by ten, so `n + 1` fuel suffices (see `decimal`). -/
def decimalAux : Nat → Nat → List Char
  | 0, _ => []
  | fuel + 1, n =>
    if n < 10 then [Nat.digitChar n]
    else decimalAux fuel (n / 10) ++ [Nat.digitChar (n % 10)]

/-- Decimal digits of a natural number, most significant first
(Python `str(int)`, used by the f-string `f"{env}:{my_index}"`). -/
def decimal (n : Nat) : List Char := decimalAux (n + 1) n

/-- ASCII lower-casing, modelling the `re.I` flag on the alias patterns. -/
def lowerStr (s : List Char) : List Char := s.map Char.toLower

-- ----------------------
-- Canonical categories and alias matching
-- ----------------------

/-- The canonical statement categories (`CANONICAL_ORDER`). -/
inductive Canon where
  | definition | theorem_ | lemma_ | proposition
  | corollary | construction | example_ | remark
  deriving DecidableEq, Repr

/-- The alternatives of each category's alias pattern (`ALIASES`), in the
declaration order of the Python dict. -/
def ALIASES : List (Canon × List (List Char)) :=
  [ (Canon.definition,   ["definition".data, "defn".data, "def".data]),
    (Canon.theorem_,     ["theorem".data, "thm".data, "th".data, "thrm".data]),
    (Canon.lemma_,       ["lemma".data, "lem".data, "ilemma".data, "alemma".data]),
    (Canon.proposition,  ["proposition".data, "propn".data, "prop".data, "prp".data]),
    (Canon.corollary,    ["corollary".data, "cor".data, "corol".data, "corl".data]),
    (Canon.construction, ["construction".data, "constn".data, "const".data, "constr".data]),
    (Canon.example_,     ["example".data, "examples".data, "iexample".data]),
    (Canon.remark,       ["remark".data, "remarks".data]) ]

/-- Alternatives of `PROOF_ALIAS_RX`. -/
def PROOF_ALIASES : List (List Char) :=
  ["proof".data, "pr".data, "pf".data, "prf".data, "pfof".data, "pfoftheorem".data]

/-- `canonical_of_env`: first category whose alias pattern fully matches the
environment name case-insensitively. -/
def canonical_of_env (envname : List Char) : Option Canon :=
  (ALIASES.find? (fun p => p.2.contains (lowerStr envname))).map (·.1)

/-- `PROOF_ALIAS_RX.fullmatch`. -/
def isProofAlias (envname : List Char) : Bool :=
  PROOF_ALIASES.contains (lowerStr envname)

-- ----------------------
-- Directive extraction (LABEL_RX, USES_RX, PROVES_RX)
-- ----------------------

/-- Match a literal character sequence, returning the rest on success. -/
def matchLit : List Char → List Char → Option (List Char)
  | [], s => some s
  | _ :: _, [] => none
  | l :: ls, c :: cs => if c = l then matchLit ls cs else none

/-- Match `([^}]*)\}`: characters other than `}` (possibly none), then `}`.
Returns the group and the rest after the closing brace. -/
def braceGroupStar : List Char → Option (List Char × List Char)
  | [] => none
  | c :: cs =>
    if c = '}' then some ([], cs)
    else match braceGroupStar cs with
      | some (g, r) => some (c :: g, r)
      | none => none

/-- Match `([^}]+)\}`: like `braceGroupStar` but the group must be nonempty. -/
def braceGroupPlus (s : List Char) : Option (List Char × List Char) :=
  match braceGroupStar s with
  | some (g, r) => if g = [] then none else some (g, r)
  | none => none

/-- Attempt `LABEL_RX` = `\\label\{([^}]+)\}` at the current position. -/
def tryLabel (s : List Char) : Option (List Char × List Char) :=
  match matchLit "\\label\x7b".data s with
  | some r => braceGroupPlus r
  | none => none

/-- Attempt `USES_RX` = `\\uses\{([^}]*)\}` at the current position. -/
def tryUses (s : List Char) : Option (List Char × List Char) :=
  match matchLit "\\uses\x7b".data s with
  | some r => braceGroupStar r
  | none => none

/-- Attempt `PROVES_RX` = `\\proves\{([^}]*)\}` at the current position. -/
def tryProves (s : List Char) : Option (List Char × List Char) :=
  match matchLit "\\proves\x7b".data s with
  | some r => braceGroupStar r
  | none => none

/-- `re.search`: the group of the leftmost match of a pattern, if any. -/
def searchFirst (try_ : List Char → Option (List Char × List Char)) :
    List Char → Option (List Char)
  | [] => none
  | c :: cs =>
    match try_ (c :: cs) with
    | some (g, _) => some g
    | none => searchFirst try_ cs

/-- `re.finditer`, fuel-driven: all non-overlapping matches, scanning left to
right and resuming after each match. The fuel only bounds the number of scan
steps; `s.length` steps always suffice because every step consumes at least
one character. -/
def findAllAux (try_ : List Char → Option (List Char × List Char)) :
    Nat → List Char → List (List Char)
  | 0, _ => []
  | _ + 1, [] => []
  | fuel + 1, c :: cs =>
    match try_ (c :: cs) with
    | some (g, rest) => g :: findAllAux try_ fuel rest
    | none => findAllAux try_ fuel cs

/-- All matches of a pattern in a text (`re.finditer`). -/
def findAll (try_ : List Char → Option (List Char × List Char))
    (s : List Char) : List (List Char) :=
  findAllAux try_ s.length s

/-- `LABEL_RX.search(s)`: the first explicit label of a block, if any. -/
def searchLabel (s : List Char) : Option (List Char) := searchFirst tryLabel s

/-- `PROVES_RX.search(s)`. -/
def searchProves (s : List Char) : Option (List Char) := searchFirst tryProves s

/-- The label list of one `\uses{...}` group:
`[x.strip() for x in um.group(1).split(",") if x.strip()]`. -/
def usesEntries (g : List Char) : List (List Char) :=
  ((splitComma g).map pyStrip).filter (· ≠ [])

-- ----------------------
-- The LaTeX node model and the structural walker
-- ----------------------

mutual
/-- A node of the list produced by `LatexWalker.get_latex_nodes`.
`env` is a `LatexEnvironmentNode` with its environment name, its
`latex_verbatim()` text and its children; `other` covers every other node
kind (chars, macros, groups, ...), of which the walker only uses the
children. -/
inductive LNode where
  | env : List Char → List Char → LForest → LNode
  | other : LForest → LNode
  deriving DecidableEq

/-- A list of LaTeX nodes (kept mutual with `LNode` so that the walker can
recurse structurally). -/
inductive LForest where
  | nil : LForest
  | cons : LNode → LForest → LForest
  deriving DecidableEq
end

/-- `NodeInfo = namedtuple("NodeInfo", "canon env label index")`. -/
structure NodeInfo where
  canon : Canon
  env : List Char
  label : List Char
  index : Nat
  deriving DecidableEq, Repr

/-- One entry of the walker's `proofs` list. -/
structure ProofRec where
  index : Nat
  target_label : Option (List Char)
  uses : List (List Char)
  target_node_idx : Option Nat
  deriving DecidableEq, Repr

/-- Specification-only trace of what the walker recorded, in traversal
order.  A `stmt` event also remembers the raw result of `LABEL_RX.search`
(the explicit label, or `none`); it is not consulted by any executable part
of the pipeline. -/
inductive Ev where
  | stmt : NodeInfo → Option (List Char) → Ev
  | prf : ProofRec → Ev
  deriving DecidableEq, Repr

/-- The walker's mutable state: the accumulators of `parse_latex_structure`
plus the ghost event trace. Python dicts are modelled as association lists
where insertion prepends, so that lookup (first hit) sees the latest
binding, and `defaultdict` entry order is modelled by appending new keys. -/
structure WalkSt where
  nodes : List NodeInfo
  node_by_index : List (Nat × NodeInfo)
  label_to_node : List (List Char × NodeInfo)
  uses_on_node : List (Nat × List (List Char))
  proofs : List ProofRec
  order_counter : Nat
  last_stmt_idx : Option Nat
  events : List Ev
  deriving DecidableEq, Repr

/-- The initial walker state. -/
def initSt : WalkSt :=
  { nodes := [], node_by_index := [], label_to_node := [], uses_on_node := [],
    proofs := [], order_counter := 0, last_stmt_idx := none, events := [] }

/-- Association-list lookup with the semantics of Python `dict.get`. -/
def alookup {α : Type} [DecidableEq α] (m : List (α × NodeInfo)) (k : α) :
    Option NodeInfo :=
  (m.find? (fun p => p.1 = k)).map (·.2)

/-- `uses_on_node[my_index].extend(labels)` on a `defaultdict(list)`:
append to the entry if the key exists, otherwise create it at the end. -/
def extendUses (m : List (Nat × List (List Char))) (k : Nat)
    (ls : List (List Char)) : List (Nat × List (List Char)) :=
  match m with
  | [] => [(k, ls)]
  | (k', ls') :: rest =>
    if k' = k then (k', ls' ++ ls) :: rest else (k', ls') :: extendUses rest k ls

/-- One iteration of the `for um in USES_RX.finditer(s)` loop of the
statement branch: `if labels: uses_on_node[my_index].extend(labels)`. -/
def usesStep (my_index : Nat) (st : WalkSt) (g : List Char) : WalkSt :=
  let labels := usesEntries g
  if labels ≠ [] then
    { st with uses_on_node := extendUses st.uses_on_node my_index labels }
  else st

/-- The whole `\uses` loop of the statement branch. -/
def applyUses (my_index : Nat) (verb : List Char) (st : WalkSt) : WalkSt :=
  (findAll tryUses verb).foldl (usesStep my_index) st

/-- The label of a statement block: the first explicit `\label` if present,
otherwise the synthetic `f"{env}:{my_index}"`. -/
def stmtLabelOf (env verb : List Char) (my_index : Nat) : List Char :=
  match searchLabel verb with
  | some l => l
  | none => env ++ ':' :: decimal my_index

/-- The `NodeInfo` recorded for a statement block. -/
def stmtNodeOf (canon : Canon) (env verb : List Char) (my_index : Nat) : NodeInfo :=
  ⟨canon, env, stmtLabelOf env verb my_index, my_index⟩

/-- The statement branch of the walker (`canon`-matched and selected). -/
def recordStmt (st : WalkSt) (canon : Canon) (env verb : List Char) : WalkSt :=
  applyUses st.order_counter verb
    { st with
      nodes := st.nodes ++ [stmtNodeOf canon env verb st.order_counter],
      node_by_index :=
        (st.order_counter, stmtNodeOf canon env verb st.order_counter) :: st.node_by_index,
      label_to_node := match searchLabel verb with
        | some l => (l, stmtNodeOf canon env verb st.order_counter) :: st.label_to_node
        | none => st.label_to_node,
      order_counter := st.order_counter + 1,
      last_stmt_idx := some st.order_counter,
      events := st.events ++
        [Ev.stmt (stmtNodeOf canon env verb st.order_counter) (searchLabel verb)] }

/-- The `ProofRec` recorded for a proof block: the stripped `\proves` group
(if any), all `\uses` entries concatenated, and the traversal-order
fallback target. -/
def proofRecOf (verb : List Char) (my_index : Nat) (fallback : Option Nat) : ProofRec :=
  ⟨my_index, (searchProves verb).map pyStrip,
    ((findAll tryUses verb).map usesEntries).flatten, fallback⟩

/-- The proof branch of the walker (`PROOF_ALIAS_RX`-matched). -/
def recordProof (st : WalkSt) (verb : List Char) : WalkSt :=
  { st with
    proofs := st.proofs ++ [proofRecOf verb st.order_counter st.last_stmt_idx],
    order_counter := st.order_counter + 1,
    events := st.events ++ [Ev.prf (proofRecOf verb st.order_counter st.last_stmt_idx)] }

/-- Handling of one environment node: the category check first, then the
proof-alias check, as in the body of `walk`. -/
def processEnv (sel : List Canon) (st : WalkSt) (env verb : List Char) : WalkSt :=
  match canonical_of_env env with
  | some canon =>
    if canon ∈ sel then recordStmt st canon env verb
    else if isProofAlias env then recordProof st verb else st
  | none =>
    if isProofAlias env then recordProof st verb else st

mutual
/-- `walk(n)`: process an environment node, then recurse into the children;
non-environment nodes only have their children walked. -/
def walk (sel : List Canon) (st : WalkSt) : LNode → WalkSt
  | LNode.env name verb ch => walkForest sel (processEnv sel st name verb) ch
  | LNode.other ch => walkForest sel st ch

/-- `for root in nodelist: walk(root)` and `for ch in n.nodelist: walk(ch)`. -/
def walkForest (sel : List Canon) (st : WalkSt) : LForest → WalkSt
  | LForest.nil => st
  | LForest.cons n ns => walkForest sel (walk sel st n) ns
end

/-- The post-walk resolution of one proof record:
`if p["target_label"] and p["target_label"] in label_to_node: ...`
(the Python truthiness test makes an empty declared label skip the lookup). -/
def resolveProof (ltn : List (List Char × NodeInfo)) (p : ProofRec) : ProofRec :=
  match p.target_label with
  | none => p
  | some l =>
    if l = [] then p
    else match alookup ltn l with
      | some ni => { p with target_node_idx := some ni.index }
      | none => p

/-- The result pack of `parse_latex_structure` (its five return values,
plus the ghost event trace). -/
structure ParseResult where
  nodes : List NodeInfo
  node_by_index : List (Nat × NodeInfo)
  label_to_node : List (List Char × NodeInfo)
  uses_on_node : List (Nat × List (List Char))
  proofs : List ProofRec
  events : List Ev
  deriving DecidableEq, Repr

/-- `parse_latex_structure(tex, selected_canonicals)`, taking the node list
that the external `LatexWalker` produced for `tex`. -/
def parse_latex_structure (nodelist : LForest) (sel : List Canon) : ParseResult :=
  let st := walkForest sel initSt nodelist
  { nodes := st.nodes,
    node_by_index := st.node_by_index,
    label_to_node := st.label_to_node,
    uses_on_node := st.uses_on_node,
    proofs := st.proofs.map (resolveProof st.label_to_node),
    events := st.events }

-- ----------------------
-- Graph building (build_graph)
-- ----------------------

/-- A directed edge between two node names. -/
abbrev Edge := List Char × List Char

/-- The candidate edges of one entry of the statement-level `\uses` loop of
`build_graph` (an unknown ordinal contributes nothing). -/
def usesEdgesFor (r : ParseResult) (p : Nat × List (List Char)) : List Edge :=
  match alookup r.node_by_index p.1 with
  | none => []
  | some tn => p.2.filterMap (fun lbl =>
      (alookup r.label_to_node lbl).map (fun src => (src.label, tn.label)))

/-- The candidate edges of the statement-level `\uses` loop of `build_graph`,
in iteration order. -/
def usesCandidates (r : ParseResult) : List Edge :=
  r.uses_on_node.flatMap (usesEdgesFor r)

/-- The candidate edges contributed by one resolved proof record in
`build_graph` (a `None` target ordinal or an unknown ordinal contributes
nothing). -/
def proofCandidates (r : ParseResult) (p : ProofRec) : List Edge :=
  match p.target_node_idx with
  | none => []
  | some ti =>
    match alookup r.node_by_index ti with
    | none => []
    | some tn => p.uses.filterMap (fun lbl =>
        (alookup r.label_to_node lbl).map (fun src => (src.label, tn.label)))

/-- Insertion-order deduplication: `pygraphviz.AGraph` (strict by default)
merges a node or edge added under an existing key with the existing one. -/
def dedup {α : Type} [DecidableEq α] (l : List α) : List α :=
  l.foldl (fun acc a => if a ∈ acc then acc else acc ++ [a]) []

/-- The dependency graph: node names and directed edges (the visual
attributes of `build_graph` — shapes, colours, edge styles — are not
modelled). -/
structure Graph where
  nodes : List (List Char)
  edges : List Edge
  deriving DecidableEq, Repr

/-- `build_graph(nodes, node_by_index, label_to_node, uses_on_node, proofs)`:
one graph node per statement node (keyed by label), then the `\uses` edges,
then the proof edges. -/
def build_graph (r : ParseResult) : Graph :=
  { nodes := dedup (r.nodes.map (·.label)),
    edges := dedup (usesCandidates r ++ r.proofs.flatMap (proofCandidates r)) }

-- ----------------------
-- Ghost-trace helpers and the claim-side resolution
-- ----------------------

/-- The ordinal recorded by an event. -/
def evIdx : Ev → Nat
  | Ev.stmt ni _ => ni.index
  | Ev.prf p => p.index

/-- The statement node of a statement event. -/
def evStmt : Ev → Option NodeInfo
  | Ev.stmt ni _ => some ni
  | Ev.prf _ => none

/-- The proof record of a proof event. -/
def evPrf : Ev → Option ProofRec
  | Ev.prf p => some p
  | Ev.stmt _ _ => none

/-- The explicit label of a statement event that declared one. -/
def evExplicit : Ev → Option (List Char)
  | Ev.stmt _ (some l) => some l
  | _ => none

/-- The ordinal of the most recently recorded statement node of a trace. -/
def lastStmtIdx (evs : List Ev) : Option Nat :=
  ((evs.filterMap evStmt).getLast?).map (·.index)

/-- Proof-target resolution as worded by the specification: if the proof
declared a `\proves` target label and that label matches a known
statement node, that node's ordinal overrides the fallback; otherwise the
fallback stands.  (Unlike `resolveProof`, no emptiness test guards the
lookup.) -/
def resolveSpec (ltn : List (List Char × NodeInfo)) (p : ProofRec) : ProofRec :=
  match p.target_label with
  | none => p
  | some l =>
    match alookup ltn l with
    | some ni => { p with target_node_idx := some ni.index }
    | none => p

-- ----------------------
-- Decimal representation lemmas
-- ----------------------

/-- The value of a digit string, used to invert `decimal`. -/
def decVal (l : List Char) : Nat :=
  l.foldl (fun a c => a * 10 + (c.toNat - 48)) 0

theorem decVal_append (xs : List Char) (c : Char) :
    decVal (xs ++ [c]) = 10 * decVal xs + (c.toNat - 48) := by
  simp [decVal, List.foldl_append, Nat.mul_comm]

theorem digitChar_toNat (d : Nat) (h : d < 10) :
    (Nat.digitChar d).toNat - 48 = d := by
  interval_cases d <;> decide

theorem decimalAux_val : ∀ fuel n, n < fuel → decVal (decimalAux fuel n) = n := by
  intro fuel
  induction fuel with
  | zero => omega
  | succ f ih =>
    intro n hn
    by_cases h10 : n < 10
    · simp only [decimalAux, if_pos h10]
      have : decVal [Nat.digitChar n] = (Nat.digitChar n).toNat - 48 := by
        simp [decVal]
      rw [this, digitChar_toNat n h10]
    · simp only [decimalAux, if_neg h10]
      rw [decVal_append, ih (n / 10) (by omega), digitChar_toNat (n % 10) (by omega)]
      omega

theorem decVal_decimal (n : Nat) : decVal (decimal n) = n :=
  decimalAux_val (n + 1) n (Nat.lt_succ_self n)

theorem decimal_injective {m n : Nat} (h : decimal m = decimal n) : m = n := by
  have := decVal_decimal m
  rw [h, decVal_decimal] at this
  omega

/-- Splitting a synthetic label at its first colon: if neither prefix
contains a colon, equal concatenations have equal parts. -/
theorem colon_split :
    ∀ (e₁ : List Char), ':' ∉ e₁ → ∀ (e₂ : List Char), ':' ∉ e₂ →
      ∀ d₁ d₂ : List Char, e₁ ++ ':' :: d₁ = e₂ ++ ':' :: d₂ → e₁ = e₂ ∧ d₁ = d₂ := by
  intro e₁
  induction e₁ with
  | nil =>
    intro _ e₂ h₂ d₁ d₂ h
    cases e₂ with
    | nil => simpa using h
    | cons c cs =>
      simp only [List.nil_append, List.cons_append, List.cons.injEq] at h
      exact absurd (h.1 ▸ List.mem_cons_self c cs) h₂
  | cons c cs ih =>
    intro h₁ e₂ h₂ d₁ d₂ h
    cases e₂ with
    | nil =>
      simp only [List.cons_append, List.nil_append, List.cons.injEq] at h
      exact absurd (h.1 ▸ List.mem_cons_self c cs) h₁
    | cons c' cs' =>
      simp only [List.cons_append, List.cons.injEq] at h
      obtain ⟨rfl, h⟩ := h
      have := ih (fun hm => h₁ (List.mem_cons_of_mem _ hm)) cs'
        (fun hm => h₂ (List.mem_cons_of_mem _ hm)) d₁ d₂ h
      exact ⟨by rw [this.1], this.2⟩

/-- Two synthetic labels with colon-free environment names and distinct
ordinals are distinct. -/
theorem synthetic_ne {e₁ e₂ : List Char} {i j : Nat}
    (h₁ : ':' ∉ e₁) (h₂ : ':' ∉ e₂) (hij : i ≠ j) :
    e₁ ++ ':' :: decimal i ≠ e₂ ++ ':' :: decimal j := by
  intro h
  exact hij (decimal_injective (colon_split e₁ h₁ e₂ h₂ _ _ h).2)

/-- Every alias alternative of the taxonomy is colon-free. -/
theorem aliases_no_colon :
    ∀ p ∈ ALIASES, ∀ alt ∈ p.2, ':' ∉ alt := by decide

/-- An environment name that matches a category alias contains no colon. -/
theorem canonical_env_no_colon {e : List Char} {c : Canon}
    (h : canonical_of_env e = some c) : ':' ∉ e := by
  intro hmem
  unfold canonical_of_env at h
  cases hfind : ALIASES.find? (fun p => p.2.contains (lowerStr e)) with
  | none => rw [hfind] at h; simp at h
  | some p =>
    have hp := List.find?_some hfind
    have hpmem := List.mem_of_find?_eq_some hfind
    have hp2 : lowerStr e ∈ p.2 := List.mem_of_elem_eq_true hp
    have hcolon : ':' ∈ lowerStr e := by
      have : Char.toLower ':' = ':' := by decide
      simpa [lowerStr, this] using List.mem_map_of_mem Char.toLower hmem
    exact aliases_no_colon p hpmem (lowerStr e) hp2 hcolon

/-- `braceGroupPlus` groups are nonempty. -/
theorem braceGroupPlus_ne {s g r : List Char} (h : braceGroupPlus s = some (g, r)) :
    g ≠ [] := by
  unfold braceGroupPlus at h
  cases hb : braceGroupStar s with
  | none => rw [hb] at h; simp at h
  | some p =>
    obtain ⟨g', r'⟩ := p
    rw [hb] at h
    by_cases hg : g' = []
    · simp [hg] at h
    · simp only [if_neg hg, Option.some.injEq, Prod.mk.injEq] at h
      exact h.1 ▸ hg

/-- `tryLabel` groups are nonempty. -/
theorem tryLabel_ne {s g r : List Char} (h : tryLabel s = some (g, r)) : g ≠ [] := by
  unfold tryLabel at h
  cases hm : matchLit "\\label\x7b".data s with
  | none => rw [hm] at h; simp at h
  | some rest => rw [hm] at h; exact braceGroupPlus_ne h

/-- The first explicit label of a block, when present, is nonempty. -/
theorem searchLabel_ne : ∀ {s l : List Char}, searchLabel s = some l → l ≠ [] := by
  intro s
  induction s with
  | nil => intro l h; simp [searchLabel, searchFirst] at h
  | cons c cs ih =>
    intro l h
    simp only [searchLabel, searchFirst] at h
    cases ht : tryLabel (c :: cs) with
    | some p =>
      obtain ⟨g', r'⟩ := p
      rw [ht] at h
      simp only [Option.some.injEq] at h
      exact h ▸ tryLabel_ne ht
    | none => rw [ht] at h; exact ih h

-- ----------------------
-- Field characterizations of the walker steps
-- ----------------------

theorem foldl_proj {α β γ : Type} (f : β → γ → β) (P : β → α)
    (h : ∀ st g, P (f st g) = P st) :
    ∀ (l : List γ) (st : β), P (l.foldl f st) = P st := by
  intro l
  induction l with
  | nil => intro st; rfl
  | cons g gs ih => intro st; rw [List.foldl_cons, ih, h]

theorem usesStep_nodes (i : Nat) (st : WalkSt) (g : List Char) :
    (usesStep i st g).nodes = st.nodes := by
  simp only [usesStep]; split <;> rfl

theorem usesStep_nbi (i : Nat) (st : WalkSt) (g : List Char) :
    (usesStep i st g).node_by_index = st.node_by_index := by
  simp only [usesStep]; split <;> rfl

theorem usesStep_ltn (i : Nat) (st : WalkSt) (g : List Char) :
    (usesStep i st g).label_to_node = st.label_to_node := by
  simp only [usesStep]; split <;> rfl

theorem usesStep_proofs (i : Nat) (st : WalkSt) (g : List Char) :
    (usesStep i st g).proofs = st.proofs := by
  simp only [usesStep]; split <;> rfl

theorem usesStep_counter (i : Nat) (st : WalkSt) (g : List Char) :
    (usesStep i st g).order_counter = st.order_counter := by
  simp only [usesStep]; split <;> rfl

theorem usesStep_last (i : Nat) (st : WalkSt) (g : List Char) :
    (usesStep i st g).last_stmt_idx = st.last_stmt_idx := by
  simp only [usesStep]; split <;> rfl

theorem usesStep_events (i : Nat) (st : WalkSt) (g : List Char) :
    (usesStep i st g).events = st.events := by
  simp only [usesStep]; split <;> rfl

theorem applyUses_nodes (i : Nat) (v : List Char) (st : WalkSt) :
    (applyUses i v st).nodes = st.nodes :=
  foldl_proj _ _ (usesStep_nodes i) _ st

theorem applyUses_nbi (i : Nat) (v : List Char) (st : WalkSt) :
    (applyUses i v st).node_by_index = st.node_by_index :=
  foldl_proj _ _ (usesStep_nbi i) _ st

theorem applyUses_ltn (i : Nat) (v : List Char) (st : WalkSt) :
    (applyUses i v st).label_to_node = st.label_to_node :=
  foldl_proj _ _ (usesStep_ltn i) _ st

theorem applyUses_proofs (i : Nat) (v : List Char) (st : WalkSt) :
    (applyUses i v st).proofs = st.proofs :=
  foldl_proj _ _ (usesStep_proofs i) _ st

theorem applyUses_counter (i : Nat) (v : List Char) (st : WalkSt) :
    (applyUses i v st).order_counter = st.order_counter :=
  foldl_proj _ _ (usesStep_counter i) _ st

theorem applyUses_last (i : Nat) (v : List Char) (st : WalkSt) :
    (applyUses i v st).last_stmt_idx = st.last_stmt_idx :=
  foldl_proj _ _ (usesStep_last i) _ st

theorem applyUses_events (i : Nat) (v : List Char) (st : WalkSt) :
    (applyUses i v st).events = st.events :=
  foldl_proj _ _ (usesStep_events i) _ st

theorem extendUses_keys {k : Nat} {ls : List (List Char)} :
    ∀ {m : List (Nat × List (List Char))},
      ∀ e ∈ extendUses m k ls, e.1 = k ∨ ∃ e' ∈ m, e'.1 = e.1 := by
  intro m
  induction m with
  | nil =>
    intro e he
    simp only [extendUses, List.mem_singleton] at he
    left; rw [he]
  | cons p rest ih =>
    intro e he
    obtain ⟨k', ls'⟩ := p
    simp only [extendUses] at he
    by_cases hk : k' = k
    · rw [if_pos hk] at he
      rcases List.mem_cons.mp he with h | h
      · left; rw [h]; exact hk
      · right; exact ⟨e, List.mem_cons_of_mem _ h, rfl⟩
    · rw [if_neg hk] at he
      rcases List.mem_cons.mp he with h | h
      · right; exact ⟨e, h ▸ List.mem_cons_self _ _, rfl⟩
      · rcases ih e h with h2 | ⟨e', he', heq⟩
        · left; exact h2
        · right; exact ⟨e', List.mem_cons_of_mem _ he', heq⟩

theorem usesStep_keys {i : Nat} {st : WalkSt} {g : List Char} :
    ∀ e ∈ (usesStep i st g).uses_on_node,
      e.1 = i ∨ ∃ e' ∈ st.uses_on_node, e'.1 = e.1 := by
  intro e he
  simp only [usesStep] at he
  split at he
  · exact extendUses_keys e he
  · right; exact ⟨e, he, rfl⟩

theorem applyUses_keys {i : Nat} {v : List Char} :
    ∀ {st : WalkSt}, ∀ e ∈ (applyUses i v st).uses_on_node,
      e.1 = i ∨ ∃ e' ∈ st.uses_on_node, e'.1 = e.1 := by
  unfold applyUses
  generalize findAll tryUses v = gs
  induction gs with
  | nil => intro st e he; right; exact ⟨e, he, rfl⟩
  | cons g gs ih =>
    intro st e he
    rw [List.foldl_cons] at he
    rcases ih e he with h | ⟨e', he', heq⟩
    · left; exact h
    · rcases usesStep_keys e' he' with h | ⟨e'', he'', heq'⟩
      · left; rw [← heq]; exact h
      · right; exact ⟨e'', he'', by rw [heq', heq]⟩

theorem alookup_cons_eq {α : Type} [DecidableEq α] (m : List (α × NodeInfo))
    (k : α) (ni : NodeInfo) : alookup ((k, ni) :: m) k = some ni := by
  simp [alookup, List.find?]

theorem alookup_cons_ne {α : Type} [DecidableEq α] (m : List (α × NodeInfo))
    (k k' : α) (ni : NodeInfo) (h : k' ≠ k) :
    alookup ((k, ni) :: m) k' = alookup m k' := by
  simp only [alookup, List.find?]
  rw [decide_eq_false (by simpa using fun h2 => h h2.symm)]


theorem recordStmt_nodes (st : WalkSt) (c : Canon) (e v : List Char) :
    (recordStmt st c e v).nodes = st.nodes ++ [stmtNodeOf c e v st.order_counter] := by
  simp [recordStmt, applyUses_nodes]

theorem recordStmt_nbi (st : WalkSt) (c : Canon) (e v : List Char) :
    (recordStmt st c e v).node_by_index =
      (st.order_counter, stmtNodeOf c e v st.order_counter) :: st.node_by_index := by
  simp [recordStmt, applyUses_nbi]

theorem recordStmt_ltn (st : WalkSt) (c : Canon) (e v : List Char) :
    (recordStmt st c e v).label_to_node =
      match searchLabel v with
      | some l => (l, stmtNodeOf c e v st.order_counter) :: st.label_to_node
      | none => st.label_to_node := by
  cases hsl : searchLabel v <;> simp [recordStmt, applyUses_ltn, hsl]

theorem recordStmt_proofs (st : WalkSt) (c : Canon) (e v : List Char) :
    (recordStmt st c e v).proofs = st.proofs := by
  simp [recordStmt, applyUses_proofs]

theorem recordStmt_counter (st : WalkSt) (c : Canon) (e v : List Char) :
    (recordStmt st c e v).order_counter = st.order_counter + 1 := by
  simp [recordStmt, applyUses_counter]

theorem recordStmt_last (st : WalkSt) (c : Canon) (e v : List Char) :
    (recordStmt st c e v).last_stmt_idx = some st.order_counter := by
  simp [recordStmt, applyUses_last]

theorem recordStmt_events (st : WalkSt) (c : Canon) (e v : List Char) :
    (recordStmt st c e v).events =
      st.events ++ [Ev.stmt (stmtNodeOf c e v st.order_counter) (searchLabel v)] := by
  simp [recordStmt, applyUses_events]

theorem recordStmt_uses_keys (st : WalkSt) (c : Canon) (e v : List Char) :
    ∀ x ∈ (recordStmt st c e v).uses_on_node,
      x.1 = st.order_counter ∨ ∃ x' ∈ st.uses_on_node, x'.1 = x.1 := by
  intro x hx
  simp only [recordStmt] at hx
  have h2 := applyUses_keys (v := v) x hx
  exact h2

-- ----------------------
-- The walker invariant
-- ----------------------

/-- Everything the claims need to know about a reachable walker state,
relative to the selected categories. -/
structure Inv (sel : List Canon) (st : WalkSt) : Prop where
  idx_lt : ∀ ev ∈ st.events, evIdx ev < st.order_counter
  mono : st.events.Pairwise (fun a b => evIdx a < evIdx b)
  nodes_eq : st.nodes = st.events.filterMap evStmt
  proofs_eq : st.proofs = st.events.filterMap evPrf
  nbi_sound : ∀ i ni, alookup st.node_by_index i = some ni →
      ni ∈ st.nodes ∧ ni.index = i
  ltn_sound : ∀ l ni, alookup st.label_to_node l = some ni →
      ni ∈ st.nodes ∧ ni.label = l ∧ Ev.stmt ni (some l) ∈ st.events
  ltn_none : ∀ l, alookup st.label_to_node l = none ↔
      ∀ ni, Ev.stmt ni (some l) ∉ st.events
  stmt_label : ∀ ni olbl, Ev.stmt ni olbl ∈ st.events →
      (∀ l, olbl = some l → ni.label = l ∧ l ≠ []) ∧
      (olbl = none → ni.label = ni.env ++ ':' :: decimal ni.index) ∧
      canonical_of_env ni.env = some ni.canon ∧ ni.canon ∈ sel
  last_eq : st.last_stmt_idx = lastStmtIdx st.events
  prf_fallback : ∀ p ∈ st.proofs, ∃ pre post,
      st.events = pre ++ Ev.prf p :: post ∧ p.target_node_idx = lastStmtIdx pre
  uses_keys : ∀ x ∈ st.uses_on_node,
      ∃ ni olbl, Ev.stmt ni olbl ∈ st.events ∧ ni.index = x.1
  counter_eq : st.order_counter = st.events.length

theorem inv_init (sel : List Canon) : Inv sel initSt := by
  refine ⟨?_, ?_, ?_, ?_, ?_, ?_, ?_, ?_, ?_, ?_, ?_, ?_⟩ <;>
    simp [initSt, alookup, lastStmtIdx]

theorem lastStmtIdx_stmt (evs : List Ev) (ni : NodeInfo) (olbl : Option (List Char)) :
    lastStmtIdx (evs ++ [Ev.stmt ni olbl]) = some ni.index := by
  simp [lastStmtIdx, List.filterMap_append, evStmt]

theorem lastStmtIdx_prf (evs : List Ev) (p : ProofRec) :
    lastStmtIdx (evs ++ [Ev.prf p]) = lastStmtIdx evs := by
  simp [lastStmtIdx, List.filterMap_append, evPrf, evStmt]

theorem inv_recordStmt {sel : List Canon} {st : WalkSt} {c : Canon} {e v : List Char}
    (inv : Inv sel st) (hc : canonical_of_env e = some c) (hsel : c ∈ sel) :
    Inv sel (recordStmt st c e v) := by
  set i := st.order_counter with hi
  set ni := stmtNodeOf c e v i with hni
  have hniIdx : ni.index = i := rfl
  have hEv : (recordStmt st c e v).events = st.events ++ [Ev.stmt ni (searchLabel v)] :=
    recordStmt_events st c e v
  refine ⟨?_, ?_, ?_, ?_, ?_, ?_, ?_, ?_, ?_, ?_, ?_, ?_⟩
  · -- idx_lt
    rw [hEv, recordStmt_counter]
    intro ev hev
    rcases List.mem_append.mp hev with h | h
    · exact Nat.lt_succ_of_lt (inv.idx_lt ev h)
    · simp only [List.mem_singleton] at h
      subst h
      simp [evIdx, hniIdx]
  · -- mono
    rw [hEv]
    refine (List.pairwise_append).mpr ⟨inv.mono, List.pairwise_singleton _ _, ?_⟩
    intro a ha b hb
    simp only [List.mem_singleton] at hb
    subst hb
    simpa [evIdx, hniIdx] using inv.idx_lt a ha
  · -- nodes_eq
    rw [recordStmt_nodes, hEv, List.filterMap_append, inv.nodes_eq]
    simp [evStmt]
  · -- proofs_eq
    rw [recordStmt_proofs, hEv, List.filterMap_append, inv.proofs_eq]
    simp [evPrf]
  · -- nbi_sound
    rw [recordStmt_nbi, recordStmt_nodes]
    intro j nj hj
    by_cases hji : j = i
    · subst hji
      rw [alookup_cons_eq] at hj
      cases hj
      exact ⟨List.mem_append_right _ (List.mem_singleton_self _), hniIdx⟩
    · rw [alookup_cons_ne _ _ _ _ hji] at hj
      have := inv.nbi_sound j nj hj
      exact ⟨List.mem_append_left _ this.1, this.2⟩
  · -- ltn_sound
    rw [recordStmt_ltn, recordStmt_nodes, hEv]
    cases hsl : searchLabel v with
    | none =>
      intro l nl hl
      have := inv.ltn_sound l nl hl
      exact ⟨List.mem_append_left _ this.1, this.2.1, List.mem_append_left _ this.2.2⟩
    | some l0 =>
      intro l nl hl
      by_cases hll : l = l0
      · subst hll
        rw [alookup_cons_eq] at hl
        cases hl
        refine ⟨List.mem_append_right _ (List.mem_singleton_self _), ?_, ?_⟩
        · simp [hni, stmtNodeOf, stmtLabelOf, hsl]
        · exact List.mem_append_right _ (List.mem_singleton_self _)
      · rw [alookup_cons_ne _ _ _ _ hll] at hl
        have := inv.ltn_sound l nl hl
        exact ⟨List.mem_append_left _ this.1, this.2.1, List.mem_append_left _ this.2.2⟩
  · -- ltn_none
    rw [recordStmt_ltn, hEv]
    cases hsl : searchLabel v with
    | none =>
      intro l
      rw [inv.ltn_none l]
      constructor
      · intro h nl hmem
        rcases List.mem_append.mp hmem with hmem | hmem
        · exact h nl hmem
        · simp only [List.mem_singleton, Ev.stmt.injEq] at hmem
          cases hmem.2
      · intro h nl hmem
        exact h nl (List.mem_append_left _ hmem)
    | some l0 =>
      intro l
      by_cases hll : l = l0
      · subst hll
        constructor
        · intro h
          rw [alookup_cons_eq] at h
          cases h
        · intro h
          exact absurd (List.mem_append_right _ (List.mem_singleton_self _)) (h ni)
      · rw [alookup_cons_ne _ _ _ _ hll, inv.ltn_none l]
        constructor
        · intro h nl hmem
          rcases List.mem_append.mp hmem with hmem | hmem
          · exact h nl hmem
          · simp only [List.mem_singleton, Ev.stmt.injEq] at hmem
            exact hll (by simpa [hsl] using hmem.2)
        · intro h nl hmem
          exact h nl (List.mem_append_left _ hmem)
  · -- stmt_label
    rw [hEv]
    intro nj olbl hmem
    rcases List.mem_append.mp hmem with h | h
    · exact inv.stmt_label nj olbl h
    · simp only [List.mem_singleton, Ev.stmt.injEq] at h
      obtain ⟨h1, h2⟩ := h
      subst h1
      subst h2
      refine ⟨?_, ?_, ?_, ?_⟩
      · intro l hl
        refine ⟨?_, searchLabel_ne hl⟩
        simp [hni, stmtNodeOf, stmtLabelOf, hl]
      · intro hl
        simp [hni, stmtNodeOf, stmtLabelOf, hl]
      · exact hc
      · exact hsel
  · -- last_eq
    rw [recordStmt_last, hEv, lastStmtIdx_stmt]
    rfl
  · -- prf_fallback
    rw [recordStmt_proofs, hEv]
    intro p hp
    obtain ⟨pre, post, hsplit, htgt⟩ := inv.prf_fallback p hp
    exact ⟨pre, post ++ [Ev.stmt ni (searchLabel v)], by rw [hsplit]; simp, htgt⟩
  · -- uses_keys
    rw [hEv]
    intro x hx
    rcases recordStmt_uses_keys st c e v x hx with h | ⟨x', hx', heq⟩
    · exact ⟨ni, searchLabel v, List.mem_append_right _ (List.mem_singleton_self _),
        by rw [hniIdx, h]⟩
    · obtain ⟨nj, olbl, hmem, hidx⟩ := inv.uses_keys x' hx'
      exact ⟨nj, olbl, List.mem_append_left _ hmem, by rw [hidx, heq]⟩
  · -- counter_eq
    rw [recordStmt_counter, hEv, List.length_append, inv.counter_eq]
    rfl

theorem inv_recordProof {sel : List Canon} {st : WalkSt} {v : List Char}
    (inv : Inv sel st) : Inv sel (recordProof st v) := by
  have hpIdx : (proofRecOf v st.order_counter st.last_stmt_idx).index = st.order_counter := rfl
  refine ⟨?_, ?_, ?_, ?_, ?_, ?_, ?_, ?_, ?_, ?_, ?_, ?_⟩
  · intro ev hev
    simp only [recordProof] at hev ⊢
    rcases List.mem_append.mp hev with h | h
    · exact Nat.lt_succ_of_lt (inv.idx_lt ev h)
    · simp only [List.mem_singleton] at h
      subst h
      simp [evIdx, hpIdx]
  · simp only [recordProof]
    refine (List.pairwise_append).mpr ⟨inv.mono, List.pairwise_singleton _ _, ?_⟩
    intro a ha b hb
    simp only [List.mem_singleton] at hb
    subst hb
    simpa [evIdx, hpIdx] using inv.idx_lt a ha
  · simp only [recordProof]
    rw [List.filterMap_append, inv.nodes_eq]
    simp [evStmt]
  · simp only [recordProof]
    rw [List.filterMap_append, inv.proofs_eq]
    simp [evPrf]
  · simp only [recordProof]
    intro j nj hj
    exact inv.nbi_sound j nj hj
  · simp only [recordProof]
    intro l nl hl
    have := inv.ltn_sound l nl hl
    exact ⟨this.1, this.2.1, List.mem_append_left _ this.2.2⟩
  · simp only [recordProof]
    intro l
    rw [inv.ltn_none l]
    constructor
    · intro h nl hmem
      rcases List.mem_append.mp hmem with hmem | hmem
      · exact h nl hmem
      · simp at hmem
    · intro h nl hmem
      exact h nl (List.mem_append_left _ hmem)
  · simp only [recordProof]
    intro nj olbl hmem
    rcases List.mem_append.mp hmem with h | h
    · exact inv.stmt_label nj olbl h
    · simp at h
  · simp only [recordProof]
    rw [lastStmtIdx_prf, inv.last_eq]
  · simp only [recordProof]
    intro q hq
    rcases List.mem_append.mp hq with h | h
    · obtain ⟨pre, post, hsplit, htgt⟩ := inv.prf_fallback q h
      exact ⟨pre, post ++ [Ev.prf (proofRecOf v st.order_counter st.last_stmt_idx)],
        by rw [hsplit]; simp, htgt⟩
    · simp only [List.mem_singleton] at h
      subst h
      refine ⟨st.events, [], rfl, ?_⟩
      have htgt : (proofRecOf v st.order_counter st.last_stmt_idx).target_node_idx
          = st.last_stmt_idx := rfl
      rw [htgt, inv.last_eq]
  · simp only [recordProof]
    intro x hx
    obtain ⟨nj, olbl, hmem, hidx⟩ := inv.uses_keys x hx
    exact ⟨nj, olbl, List.mem_append_left _ hmem, hidx⟩
  · simp only [recordProof]
    rw [List.length_append, inv.counter_eq]
    rfl

theorem inv_processEnv {sel : List Canon} {st : WalkSt} {e v : List Char}
    (inv : Inv sel st) : Inv sel (processEnv sel st e v) := by
  unfold processEnv
  cases hc : canonical_of_env e with
  | some c =>
    change Inv sel (if c ∈ sel then recordStmt st c e v
      else if isProofAlias e = true then recordProof st v else st)
    by_cases hsel : c ∈ sel
    · rw [if_pos hsel]
      exact inv_recordStmt inv hc hsel
    · rw [if_neg hsel]
      split
      · exact inv_recordProof inv
      · exact inv
  | none =>
    change Inv sel (if isProofAlias e = true then recordProof st v else st)
    split
    · exact inv_recordProof inv
    · exact inv

mutual
theorem inv_walk (sel : List Canon) :
    ∀ (n : LNode) (st : WalkSt), Inv sel st → Inv sel (walk sel st n)
  | LNode.env _ _ ch, _, inv =>
    inv_walkForest sel ch _ (inv_processEnv inv)
  | LNode.other ch, st, inv => inv_walkForest sel ch st inv

theorem inv_walkForest (sel : List Canon) :
    ∀ (f : LForest) (st : WalkSt), Inv sel st → Inv sel (walkForest sel st f)
  | LForest.nil, _, inv => inv
  | LForest.cons n ns, st, inv =>
    inv_walkForest sel ns _ (inv_walk sel n st inv)
end

/-- The invariant holds of the final state of every walk. -/
theorem inv_final (sel : List Canon) (f : LForest) :
    Inv sel (walkForest sel initSt f) :=
  inv_walkForest sel f initSt (inv_init sel)

-- ----------------------
-- Derived lemmas for the claims
-- ----------------------

theorem dedup_subset {α : Type} [DecidableEq α] :
    ∀ {l : List α} {a : α}, a ∈ dedup l → a ∈ l := by
  have main : ∀ (l acc : List α) (a : α),
      a ∈ l.foldl (fun acc x => if x ∈ acc then acc else acc ++ [x]) acc →
      a ∈ acc ∨ a ∈ l := by
    intro l
    induction l with
    | nil => intro acc a h; exact Or.inl h
    | cons x xs ih =>
      intro acc a h
      rw [List.foldl_cons] at h
      rcases ih _ a h with h2 | h2
      · by_cases hx : x ∈ acc
        · rw [if_pos hx] at h2; exact Or.inl h2
        · rw [if_neg hx] at h2
          rcases List.mem_append.mp h2 with h3 | h3
          · exact Or.inl h3
          · simp only [List.mem_singleton] at h3
            exact Or.inr (h3 ▸ List.mem_cons_self x xs)
      · exact Or.inr (List.mem_cons_of_mem x h2)
  intro l a h
  rcases main l [] a h with h2 | h2
  · cases h2
  · exact h2

theorem pairwise_filterMap_of {α β : Type} {l : List α} {R : α → α → Prop}
    {f : α → Option β} {S : β → β → Prop} (hp : l.Pairwise R)
    (h : ∀ a b, a ∈ l → b ∈ l → R a b →
      ∀ x y, f a = some x → f b = some y → S x y) :
    (l.filterMap f).Pairwise S := by
  induction l with
  | nil => simp
  | cons a as ih =>
    rw [List.pairwise_cons] at hp
    rw [List.filterMap_cons]
    cases hfa : f a with
    | none =>
      exact ih hp.2 (fun a' b ha hb => h a' b (List.mem_cons_of_mem _ ha)
        (List.mem_cons_of_mem _ hb))
    | some x =>
      rw [List.pairwise_cons]
      constructor
      · intro y hy
        obtain ⟨b, hb, hfb⟩ := List.mem_filterMap.mp hy
        exact h a b (List.mem_cons_self _ _) (List.mem_cons_of_mem _ hb)
          (hp.1 b hb) x y hfa hfb
      · exact ih hp.2 (fun a' b ha hb => h a' b (List.mem_cons_of_mem _ ha)
          (List.mem_cons_of_mem _ hb))

theorem pairwise_of_pairwise_filterMap {α β : Type} {l : List α}
    {f : α → Option β} {S : β → β → Prop}
    (hp : (l.filterMap f).Pairwise S) :
    l.Pairwise (fun a b => ∀ x y, f a = some x → f b = some y → S x y) := by
  induction l with
  | nil => simp
  | cons a as ih =>
    rw [List.pairwise_cons]
    cases hfa : f a with
    | none =>
      rw [List.filterMap_cons, hfa] at hp
      refine ⟨?_, ih hp⟩
      intro b _ x y hx _
      simp at hx
    | some x =>
      rw [List.filterMap_cons, hfa, List.pairwise_cons] at hp
      refine ⟨?_, ih hp.2⟩
      intro b hb x' y hx' hy
      cases hx'
      exact hp.1 y (List.mem_filterMap.mpr ⟨b, hb, hy⟩)

theorem length_filterMap_of_isSome {α β : Type} {l : List α} {f : α → Option β}
    (h : ∀ a ∈ l, (f a).isSome) : (l.filterMap f).length = l.length := by
  induction l with
  | nil => rfl
  | cons a as ih =>
    rw [List.filterMap_cons]
    cases hfa : f a with
    | none => exact absurd (h a (List.mem_cons_self _ _)) (by simp [hfa])
    | some x =>
      simp only [List.length_cons]
      rw [ih (fun b hb => h b (List.mem_cons_of_mem _ hb))]

/-- Every edge source produced by `build_graph` comes from a successful
`label_to_node` lookup, and every edge target from a successful
`node_by_index` lookup. -/
theorem edge_shape (r : ParseResult) :
    ∀ e ∈ (build_graph r).edges,
      (∃ k src, alookup r.label_to_node k = some src ∧ e.1 = src.label) ∧
      (∃ i tn, alookup r.node_by_index i = some tn ∧ e.2 = tn.label) := by
  intro e he
  have hmem := dedup_subset he
  have main : ∀ (tn : NodeInfo) (i : Nat) (uses : List (List Char)),
      alookup r.node_by_index i = some tn →
      e ∈ uses.filterMap (fun lbl => (alookup r.label_to_node lbl).map
        (fun src => (src.label, tn.label))) →
      (∃ k src, alookup r.label_to_node k = some src ∧ e.1 = src.label) ∧
      (∃ i tn, alookup r.node_by_index i = some tn ∧ e.2 = tn.label) := by
    intro tn i uses hi hmem2
    obtain ⟨k, _, hsome⟩ := List.mem_filterMap.mp hmem2
    cases hsrc : alookup r.label_to_node k with
    | none => rw [hsrc] at hsome; cases hsome
    | some src =>
      rw [hsrc] at hsome
      simp only [Option.map_some', Option.some.injEq] at hsome
      exact ⟨⟨k, src, hsrc, by rw [← hsome]⟩, ⟨i, tn, hi, by rw [← hsome]⟩⟩
  rcases List.mem_append.mp hmem with h | h
  · obtain ⟨p, _, he2⟩ := List.mem_flatMap.mp h
    unfold usesEdgesFor at he2
    split at he2
    · cases he2
    · next tn htn => exact main tn p.1 p.2 htn he2
  · obtain ⟨p, _, he2⟩ := List.mem_flatMap.mp h
    unfold proofCandidates at he2
    split at he2
    · cases he2
    · next ti _ =>
      split at he2
      · cases he2
      · next tn htn => exact main tn ti p.uses htn he2

/-- The fields of `parse_latex_structure` in terms of the walker state. -/
theorem parse_fields (ns : LForest) (sel : List Canon) :
    (parse_latex_structure ns sel).nodes = (walkForest sel initSt ns).nodes ∧
    (parse_latex_structure ns sel).node_by_index = (walkForest sel initSt ns).node_by_index ∧
    (parse_latex_structure ns sel).label_to_node = (walkForest sel initSt ns).label_to_node ∧
    (parse_latex_structure ns sel).uses_on_node = (walkForest sel initSt ns).uses_on_node ∧
    (parse_latex_structure ns sel).events = (walkForest sel initSt ns).events ∧
    (parse_latex_structure ns sel).proofs =
      ((walkForest sel initSt ns).proofs.map
        (resolveProof (walkForest sel initSt ns).label_to_node)) :=
  ⟨rfl, rfl, rfl, rfl, rfl, rfl⟩

-- ----------------------
-- Ghost projections used to state label-uniqueness hypotheses
-- ----------------------

/-- The statement node of a statement event that lacked an explicit label. -/
def evSynth : Ev → Option NodeInfo
  | Ev.stmt ni none => some ni
  | _ => none

/-- The explicitly declared labels of a trace, in traversal order. -/
def explicitLabels (evs : List Ev) : List (List Char) := evs.filterMap evExplicit

/-- The unlabeled statement nodes of a trace (their `label` is synthetic). -/
def syntheticNodes (evs : List Ev) : List NodeInfo := evs.filterMap evSynth

theorem mem_syntheticNodes {evs : List Ev} {ni : NodeInfo} :
    ni ∈ syntheticNodes evs ↔ Ev.stmt ni none ∈ evs := by
  unfold syntheticNodes
  rw [List.mem_filterMap]
  constructor
  · rintro ⟨ev, hev, hsome⟩
    cases ev with
    | prf p => cases hsome
    | stmt nj olbl =>
      cases olbl with
      | some l => cases hsome
      | none =>
        simp only [evSynth, Option.some.injEq] at hsome
        rw [← hsome]
        exact hev
  · intro h
    exact ⟨Ev.stmt ni none, h, rfl⟩

theorem mem_explicitLabels {evs : List Ev} {l : List Char} :
    l ∈ explicitLabels evs ↔ ∃ ni, Ev.stmt ni (some l) ∈ evs := by
  unfold explicitLabels
  rw [List.mem_filterMap]
  constructor
  · rintro ⟨ev, hev, hsome⟩
    cases ev with
    | prf p => cases hsome
    | stmt nj olbl =>
      cases olbl with
      | none => cases hsome
      | some l0 =>
        simp only [evExplicit, Option.some.injEq] at hsome
        exact ⟨nj, by rw [← hsome]; exact hev⟩
  · rintro ⟨ni, h⟩
    exact ⟨Ev.stmt ni (some l), h, rfl⟩

-- ----------------------
-- Concrete documents used by the end-to-end claims
-- ----------------------

/-- All canonical categories selected. -/
def allCanonical : List Canon :=
  [Canon.definition, Canon.theorem_, Canon.lemma_, Canon.proposition,
   Canon.corollary, Canon.construction, Canon.example_, Canon.remark]

/-- A child forest consisting of one non-environment node (e.g. the macro or
character material inside a block). -/
def inert : LForest := LForest.cons (LNode.other LForest.nil) LForest.nil

/-- `\begin{definition}\label{D1}\end{definition}` as parsed. -/
def c1DefNode : LNode :=
  LNode.env "definition".data "\\begin{definition}\\label{D1}\\end{definition}".data inert

/-- `\begin{theorem}\label{T1}\end{theorem}` as parsed. -/
def c1ThmNode : LNode :=
  LNode.env "theorem".data "\\begin{theorem}\\label{T1}\\end{theorem}".data inert

/-- `\begin{proof}\proves{T1}\uses{D1}\end{proof}` as parsed. -/
def c1PrfNode : LNode :=
  LNode.env "proof".data "\\begin{proof}\\proves{T1}\\uses{D1}\\end{proof}".data inert

/-- The document of end-to-end scenario 1: a definition `D1`, a theorem
`T1`, and a proof declaring `\proves{T1}` and `\uses{D1}`. -/
def c1Doc : LForest :=
  LForest.cons c1DefNode (LForest.cons c1ThmNode (LForest.cons c1PrfNode LForest.nil))

/-- Two theorem blocks that both declare the explicit label `X`. -/
def c2Doc : LForest :=
  LForest.cons
    (LNode.env "theorem".data "\\begin{theorem}\\label{X}\\end{theorem}".data inert)
    (LForest.cons
      (LNode.env "theorem".data "\\begin{theorem}\\label{X}\\end{theorem}".data inert)
      LForest.nil)

/-- An unlabeled theorem (synthetic label `theorem:0`), a theorem explicitly
labeled `theorem:0`, and a theorem `T` with `\uses{theorem:0}`. -/
def c9Doc : LForest :=
  LForest.cons
    (LNode.env "theorem".data "\\begin{theorem}\\end{theorem}".data LForest.nil)
    (LForest.cons
      (LNode.env "theorem".data "\\begin{theorem}\\label{theorem:0}\\end{theorem}".data inert)
      (LForest.cons
        (LNode.env "theorem".data
          "\\begin{theorem}\\label{T}\\uses{theorem:0}\\end{theorem}".data inert)
        LForest.nil))

-- ----------------------
-- Claim theorems
-- ----------------------

/-- C1.  End-to-end: for a document consisting of a definition block with
explicit label `D1`, a theorem block with explicit label `T1`, and a proof
block declaring `\proves{T1}` and `\uses{D1}`, with every canonical
category selected, the pipeline (parse then graph assembly) produces
exactly the two nodes `D1` and `T1` and exactly the one edge `D1 -> T1`. -/
theorem claim_C1 :
    (build_graph (parse_latex_structure c1Doc allCanonical)).nodes =
      ["D1".data, "T1".data] ∧
    (build_graph (parse_latex_structure c1Doc allCanonical)).edges =
      [("D1".data, "T1".data)] := by
  decide

/-- C2, counterexample.  Two recognized blocks may declare the same explicit
`\label{X}`; the parse then contains two statement nodes with equal labels,
so labels are not always pairwise distinct. -/
theorem claim_C2_counterexample :
    ¬ (((parse_latex_structure c2Doc allCanonical).nodes.map (·.label)).Pairwise (· ≠ ·)) := by
  decide

/-- C2, amended.  Labels of one parse are pairwise distinct provided the
explicitly declared labels are pairwise distinct and none of them equals
the label of an unlabeled (synthetic) statement node; unconditionally, two
statement nodes that both lack an explicit label have distinct labels
whenever their ordinals differ (in particular when they share a raw block
name). -/
theorem claim_C2_amended (ns : LForest) (sel : List Canon)
    (H1 : (explicitLabels (walkForest sel initSt ns).events).Pairwise (· ≠ ·))
    (H2 : ∀ l ∈ explicitLabels (walkForest sel initSt ns).events,
      ∀ nj ∈ syntheticNodes (walkForest sel initSt ns).events, l ≠ nj.label) :
    (((parse_latex_structure ns sel).nodes.map (·.label)).Pairwise (· ≠ ·)) ∧
    (∀ ni ∈ syntheticNodes (walkForest sel initSt ns).events,
      ∀ nj ∈ syntheticNodes (walkForest sel initSt ns).events,
      ni.index ≠ nj.index → ni.label ≠ nj.label) := by
  have inv := inv_final sel ns
  have synthLbl : ∀ ni ∈ syntheticNodes (walkForest sel initSt ns).events,
      ni.label = ni.env ++ ':' :: decimal ni.index ∧ ':' ∉ ni.env := by
    intro ni hni
    have hmem := mem_syntheticNodes.mp hni
    have h := inv.stmt_label ni none hmem
    exact ⟨h.2.1 rfl, canonical_env_no_colon h.2.2.1⟩
  have part2 : ∀ ni ∈ syntheticNodes (walkForest sel initSt ns).events,
      ∀ nj ∈ syntheticNodes (walkForest sel initSt ns).events,
      ni.index ≠ nj.index → ni.label ≠ nj.label := by
    intro ni hni nj hnj hij
    obtain ⟨hli, hci⟩ := synthLbl ni hni
    obtain ⟨hlj, hcj⟩ := synthLbl nj hnj
    rw [hli, hlj]
    exact synthetic_ne hci hcj hij
  refine ⟨?_, part2⟩
  rw [List.pairwise_map]
  have hexp := pairwise_of_pairwise_filterMap (f := evExplicit) H1
  have hcomb := (inv.mono).and hexp
  have hnodes : (parse_latex_structure ns sel).nodes =
      (walkForest sel initSt ns).events.filterMap evStmt := inv.nodes_eq
  rw [hnodes]
  apply pairwise_filterMap_of hcomb
  intro a b ha hb hab x y hx hy
  cases a with
  | prf p => cases hx
  | stmt ni olbla =>
    cases b with
    | prf p => cases hy
    | stmt nj olblb =>
      simp only [evStmt, Option.some.injEq] at hx hy
      rw [← hx, ← hy]
      have hsa := inv.stmt_label ni olbla ha
      have hsb := inv.stmt_label nj olblb hb
      have hij : ni.index ≠ nj.index := by
        have h3 := hab.1
        simp only [evIdx] at h3
        omega
      cases olbla with
      | none =>
        cases olblb with
        | none =>
          exact part2 ni (mem_syntheticNodes.mpr ha) nj (mem_syntheticNodes.mpr hb) hij
        | some lb =>
          have hy2 : nj.label = lb := (hsb.1 lb rfl).1
          have h4 := H2 lb (mem_explicitLabels.mpr ⟨nj, hb⟩) ni (mem_syntheticNodes.mpr ha)
          rw [hy2]
          exact fun hcon => h4 hcon.symm
      | some la =>
        have hx2 : ni.label = la := (hsa.1 la rfl).1
        cases olblb with
        | none =>
          have h4 := H2 la (mem_explicitLabels.mpr ⟨ni, ha⟩) nj (mem_syntheticNodes.mpr hb)
          rw [hx2]
          exact h4
        | some lb =>
          have hy2 : nj.label = lb := (hsb.1 lb rfl).1
          have hne : la ≠ lb := hab.2 la lb rfl rfl
          rw [hx2, hy2]
          exact hne

/-- C2, witness for the amended theorem at the scenario-1 document. -/
theorem claim_C2_witness :
    (explicitLabels (walkForest allCanonical initSt c1Doc).events).Pairwise (· ≠ ·) ∧
    (((parse_latex_structure c1Doc allCanonical).nodes.map (·.label)).Pairwise (· ≠ ·)) :=
  ⟨by decide, (claim_C2_amended c1Doc allCanonical (by decide) (by decide)).1⟩

/-- C3.  After the walk, each proof's target resolves exactly as the
specification words it (`resolveSpec`): a declared `\proves` label matching
a known statement node overrides the fallback, otherwise the fallback
stands; a proof whose resolved target ordinal is absent contributes no
candidate edges; and each proof's fallback is the ordinal of the most
recently recorded statement node preceding it in traversal order. -/
theorem claim_C3 (ns : LForest) (sel : List Canon) :
    (parse_latex_structure ns sel).proofs =
      (walkForest sel initSt ns).proofs.map
        (resolveSpec (walkForest sel initSt ns).label_to_node) ∧
    (∀ p ∈ (parse_latex_structure ns sel).proofs,
      p.target_node_idx = none →
        proofCandidates (parse_latex_structure ns sel) p = []) ∧
    (∀ p ∈ (walkForest sel initSt ns).proofs, ∃ pre post,
      (walkForest sel initSt ns).events = pre ++ Ev.prf p :: post ∧
      p.target_node_idx = lastStmtIdx pre) := by
  have inv := inv_final sel ns
  refine ⟨?_, ?_, inv.prf_fallback⟩
  · show (walkForest sel initSt ns).proofs.map
        (resolveProof (walkForest sel initSt ns).label_to_node) = _
    apply List.map_congr_left
    intro p _
    cases ht : p.target_label with
    | none => simp [resolveProof, resolveSpec, ht]
    | some l =>
      by_cases hl : l = []
      · subst hl
        have hnone : alookup (walkForest sel initSt ns).label_to_node [] = none := by
          rw [inv.ltn_none]
          intro ni hmem
          exact ((inv.stmt_label ni (some []) hmem).1 [] rfl).2 rfl
        simp [resolveProof, resolveSpec, ht, hnone]
      · simp [resolveProof, resolveSpec, ht, hl]
  · intro p _ hnone
    simp [proofCandidates, hnone]

/-- C3, witness at the scenario-1 document: the resolved proof list equals
the specification-side resolution of the recorded proofs. -/
theorem claim_C3_witness :
    (parse_latex_structure c1Doc allCanonical).proofs =
      (walkForest allCanonical initSt c1Doc).proofs.map
        (resolveSpec (walkForest allCanonical initSt c1Doc).label_to_node) :=
  (claim_C3 c1Doc allCanonical).1

/-- C4.  The ordinals recorded during the walk are strictly increasing in
traversal order; statement nodes and proof records are exactly the two
projections of that single interleaved trace, and the shared counter ends
equal to the trace length, so no ordinal is assigned twice. -/
theorem claim_C4 (ns : LForest) (sel : List Canon) :
    (((walkForest sel initSt ns).events.map evIdx).Pairwise (· < ·)) ∧
    (walkForest sel initSt ns).nodes =
      (walkForest sel initSt ns).events.filterMap evStmt ∧
    (walkForest sel initSt ns).proofs =
      (walkForest sel initSt ns).events.filterMap evPrf ∧
    (walkForest sel initSt ns).order_counter =
      (walkForest sel initSt ns).events.length := by
  have inv := inv_final sel ns
  exact ⟨List.pairwise_map.mpr inv.mono, inv.nodes_eq, inv.proofs_eq, inv.counter_eq⟩

/-- C4, witness at the scenario-1 document. -/
theorem claim_C4_witness :
    (((walkForest allCanonical initSt c1Doc).events.map evIdx).Pairwise (· < ·)) :=
  (claim_C4 c1Doc allCanonical).1

/-- C6.  A label that is no statement node's label touches no edge of the
assembled graph: every edge endpoint is the label of a node found by a
successful lookup, and graph assembly never fails. -/
theorem claim_C6 (ns : LForest) (sel : List Canon) (lbl : List Char)
    (h : ∀ n ∈ (parse_latex_structure ns sel).nodes, n.label ≠ lbl) :
    ∀ e ∈ (build_graph (parse_latex_structure ns sel)).edges,
      e.1 ≠ lbl ∧ e.2 ≠ lbl := by
  intro e he
  have inv := inv_final sel ns
  obtain ⟨⟨k, src, hsrc, he1⟩, ⟨i, tn, htn, he2⟩⟩ := edge_shape _ e he
  constructor
  · rw [he1]
    exact h src (inv.ltn_sound k src hsrc).1
  · rw [he2]
    exact h tn (inv.nbi_sound i tn htn).1

/-- C6, witness: in the scenario-1 document the label `Z` is unknown and no
edge touches it. -/
theorem claim_C6_witness :
    (∀ n ∈ (parse_latex_structure c1Doc allCanonical).nodes, n.label ≠ "Z".data) ∧
    (∀ e ∈ (build_graph (parse_latex_structure c1Doc allCanonical)).edges,
      e.1 ≠ "Z".data ∧ e.2 ≠ "Z".data) :=
  ⟨by decide, claim_C6 c1Doc allCanonical "Z".data (by decide)⟩

/-- C7.  With an empty selected-category set the parse records no statement
nodes and the assembled graph is empty, while proof blocks are still walked
and consume ordinals (the final counter equals the number of proof
records). -/
theorem claim_C7 (ns : LForest) :
    (parse_latex_structure ns []).nodes = [] ∧
    (build_graph (parse_latex_structure ns [])).nodes = [] ∧
    (build_graph (parse_latex_structure ns [])).edges = [] ∧
    (walkForest [] initSt ns).order_counter =
      (walkForest [] initSt ns).proofs.length := by
  have inv := inv_final [] ns
  have hnostmt : ∀ ev ∈ (walkForest [] initSt ns).events, evStmt ev = none := by
    intro ev hev
    cases ev with
    | stmt ni olbl =>
      exact absurd (inv.stmt_label ni olbl hev).2.2.2 (List.not_mem_nil _)
    | prf p => rfl
  have hnodes : (walkForest [] initSt ns).nodes = [] := by
    rw [inv.nodes_eq]
    exact List.filterMap_eq_nil_iff.mpr hnostmt
  have huses : (walkForest [] initSt ns).uses_on_node = [] := by
    rw [List.eq_nil_iff_forall_not_mem]
    intro x hx
    obtain ⟨ni, olbl, hmem, _⟩ := inv.uses_keys x hx
    exact absurd (hnostmt _ hmem) (by simp [evStmt])
  have hlookup : ∀ l, alookup (walkForest [] initSt ns).label_to_node l = none := by
    intro l
    rw [inv.ltn_none]
    intro ni hmem
    exact absurd (hnostmt _ hmem) (by simp [evStmt])
  have htgt : ∀ p ∈ (parse_latex_structure ns []).proofs, p.target_node_idx = none := by
    intro p hp
    obtain ⟨q, hq, rfl⟩ := List.mem_map.mp hp
    have hfb : q.target_node_idx = none := by
      obtain ⟨pre, post, hsplit, hfb⟩ := inv.prf_fallback q hq
      rw [hfb]
      have : pre.filterMap evStmt = [] := by
        apply List.filterMap_eq_nil_iff.mpr
        intro ev hev
        exact hnostmt ev (by rw [hsplit]; exact List.mem_append_left _ hev)
      simp [lastStmtIdx, this]
    cases ht : q.target_label with
    | none => simpa [resolveProof, ht] using hfb
    | some l =>
      by_cases hl : l = []
      · subst hl
        simpa [resolveProof, ht] using hfb
      · simpa [resolveProof, ht, hl, hlookup l] using hfb
  refine ⟨hnodes, ?_, ?_, ?_⟩
  · show dedup ((parse_latex_structure ns []).nodes.map (·.label)) = []
    rw [show (parse_latex_structure ns []).nodes = [] from hnodes]
    rfl
  · show dedup (usesCandidates (parse_latex_structure ns []) ++
      (parse_latex_structure ns []).proofs.flatMap
        (proofCandidates (parse_latex_structure ns []))) = []
    have h1 : usesCandidates (parse_latex_structure ns []) = [] := by
      unfold usesCandidates
      rw [show (parse_latex_structure ns []).uses_on_node = [] from huses]
      rfl
    have h2 : (parse_latex_structure ns []).proofs.flatMap
        (proofCandidates (parse_latex_structure ns [])) = [] := by
      apply List.flatMap_eq_nil_iff.mpr
      intro p hp
      simp [proofCandidates, htgt p hp]
    rw [h1, h2]
    rfl
  · rw [inv.counter_eq, inv.proofs_eq]
    symm
    apply length_filterMap_of_isSome
    intro ev hev
    cases ev with
    | stmt ni olbl => exact absurd (hnostmt _ hev) (by simp [evStmt])
    | prf p => simp [evPrf]

/-- C7, witness at the scenario-1 document (it contains one proof block). -/
theorem claim_C7_witness :
    (parse_latex_structure c1Doc []).nodes = [] ∧
    (build_graph (parse_latex_structure c1Doc [])).edges = [] :=
  ⟨(claim_C7 c1Doc).1, (claim_C7 c1Doc).2.2.1⟩

/-- C9, counterexample.  The synthetic label `theorem:0` of an unlabeled
theorem resolves and produces an edge when another block explicitly
declares `\label{theorem:0}`: the label table is keyed by explicit labels
only, but nothing prevents an explicit label from colliding with a
synthetic one. -/
theorem claim_C9_counterexample :
    ((syntheticNodes (walkForest allCanonical initSt c9Doc).events).map (·.label) =
      ["theorem:0".data]) ∧
    alookup (parse_latex_structure c9Doc allCanonical).label_to_node
      "theorem:0".data ≠ none ∧
    ("theorem:0".data, "T".data) ∈
      (build_graph (parse_latex_structure c9Doc allCanonical)).edges := by
  decide

/-- C9, amended.  The label lookup table resolves a label `l` exactly when
some block explicitly declared `l`; its value is an explicitly-`l`-labeled
node.  Hence a `\uses`/`\proves` argument equal to an unlabeled statement's
synthetic label resolves only if some block explicitly declares that same
string: when none does, no edge has source `l` and no proof's fallback
target is overridden by a declared target `l`. -/
theorem claim_C9_amended (ns : LForest) (sel : List Canon) (l : List Char) :
    (alookup (parse_latex_structure ns sel).label_to_node l = none ↔
      l ∉ explicitLabels (parse_latex_structure ns sel).events) ∧
    (∀ ni, alookup (parse_latex_structure ns sel).label_to_node l = some ni →
      ni ∈ (parse_latex_structure ns sel).nodes ∧ ni.label = l ∧
      Ev.stmt ni (some l) ∈ (parse_latex_structure ns sel).events) ∧
    (l ∉ explicitLabels (parse_latex_structure ns sel).events →
      (∀ e ∈ (build_graph (parse_latex_structure ns sel)).edges, e.1 ≠ l) ∧
      (∀ p ∈ (walkForest sel initSt ns).proofs, p.target_label = some l →
        resolveProof (walkForest sel initSt ns).label_to_node p = p)) := by
  have inv := inv_final sel ns
  have hiff : (l ∉ explicitLabels (parse_latex_structure ns sel).events) ↔
      ∀ ni, Ev.stmt ni (some l) ∉ (walkForest sel initSt ns).events := by
    constructor
    · intro h ni hmem
      exact h (mem_explicitLabels.mpr ⟨ni, hmem⟩)
    · intro h hmem
      obtain ⟨ni, hni⟩ := mem_explicitLabels.mp hmem
      exact h ni hni
  refine ⟨(inv.ltn_none l).trans hiff.symm, fun ni h => inv.ltn_sound l ni h, ?_⟩
  intro hno
  have hlook : alookup (walkForest sel initSt ns).label_to_node l = none :=
    (inv.ltn_none l).mpr (hiff.mp hno)
  constructor
  · intro e he
    obtain ⟨⟨k, src, hsrc, he1⟩, _⟩ := edge_shape _ e he
    have hsrc2 : alookup (walkForest sel initSt ns).label_to_node k = some src := hsrc
    have hk := inv.ltn_sound k src hsrc2
    intro hcon
    have hkl : k = l := by
      have hlbl := hk.2.1
      rw [← hlbl, ← he1, hcon]
    rw [hkl, hlook] at hsrc2
    cases hsrc2
  · intro p _ hdecl
    by_cases hl : l = []
    · subst hl
      simp [resolveProof, hdecl]
    · simp [resolveProof, hdecl, hl, hlook]

/-- C9, witness: in the scenario-1 document the label `Z` is undeclared, so
it does not resolve. -/
theorem claim_C9_witness :
    alookup (parse_latex_structure c1Doc allCanonical).label_to_node "Z".data = none :=
  (claim_C9_amended c1Doc allCanonical "Z".data).1.mpr (by decide)

-- ----------------------
-- Path helpers (posixpath semantics of the os.path calls in the source)
-- ----------------------

/-- `os.path.isabs`. -/
def isAbs : List Char → Bool
  | '/' :: _ => true
  | _ => false

/-- Two-argument `os.path.join`. -/
def pjoin (a b : List Char) : List Char :=
  if isAbs b then b
  else if a = [] || a.getLast? = some '/' then a ++ b
  else a ++ '/' :: b

/-- Split a path on `/`. -/
def splitSlash : List Char → List (List Char)
  | [] => [[]]
  | c :: cs =>
    if c = '/' then [] :: splitSlash cs
    else match splitSlash cs with
      | [] => [[c]]
      | g :: gs => (c :: g) :: gs

/-- Join components with `/` (Python `"/".join`). -/
def joinSlash : List (List Char) → List Char
  | [] => []
  | [g] => g
  | g :: gs => g ++ '/' :: joinSlash gs

/-- `os.path.normpath` (posix): collapse `.` and empty components, resolve
`..`, preserving a double leading slash exactly as Python does. -/
def normpath (p : List Char) : List Char :=
  if p = [] then ['.']
  else
    let initialSlashes : Nat :=
      if isAbs p then
        (match p with
          | '/' :: '/' :: '/' :: _ => 1
          | '/' :: '/' :: _ => 2
          | _ => 1)
      else 0
    let newComps := (splitSlash p).foldl
      (fun acc comp =>
        if comp = [] || comp = ['.'] then acc
        else if comp ≠ "..".data || (initialSlashes = 0 && acc = List.nil) ||
            (acc ≠ [] && acc.getLast? = some "..".data) then acc ++ [comp]
        else acc.dropLast)
      []
    let res := List.replicate initialSlashes '/' ++ joinSlash newComps
    if res = [] then ['.'] else res

/-- `os.path.dirname` (posix). -/
def dirname (p : List Char) : List Char :=
  let tailLen := (p.reverse.takeWhile (· ≠ '/')).length
  let head := p.take (p.length - tailLen)
  if head ≠ [] && head.any (· ≠ '/') then
    (head.reverse.dropWhile (· = '/')).reverse
  else head

/-- `os.path.basename` (posix): everything after the last `/`. -/
def basename (p : List Char) : List Char :=
  (p.reverse.takeWhile (· ≠ '/')).reverse

/-- Whether `os.path.splitext(p)[1]` is nonempty: the basename must contain
a dot preceded by some non-dot character. -/
def hasExt (p : List Char) : Bool :=
  '.' ∈ ((basename p).dropWhile (· = '.'))

/-- `ensure_tex_ext`: append `.tex` when the path has no extension. -/
def ensure_tex_ext (p : List Char) : List Char :=
  if hasExt p then p else p ++ ".tex".data

/-- `norm_join`. -/
def norm_join (base rel : List Char) : List Char := normpath (pjoin base rel)

/-- `os.path.abspath`, with the process working directory made explicit. -/
def os_abspath (cwd p : List Char) : List Char := normpath (pjoin cwd p)

-- ----------------------
-- strip_comments (COMMENT_RX = `(^|[^\\])%.*` substituted by group 1)
-- ----------------------

/-- Length of `dropWhile` never exceeds the input length. -/
theorem dropWhile_length_le (p : Char → Bool) (s : List Char) :
    (s.dropWhile p).length ≤ s.length := by
  induction s with
  | nil => simp [List.dropWhile]
  | cons c cs ih =>
    simp only [List.dropWhile]
    by_cases h : p c
    · simp only [h]
      simp only [List.length_cons]
      omega
    · simp [h]

/-- Drop the matched `.*` of a comment: everything up to (excluding) the
next newline. -/
def dropLine (s : List Char) : List Char := s.dropWhile (· ≠ '\n')

/-- The scan for `[^\\]%` matches at positions past the start of the
string; after each match the scan resumes at the newline. -/
def scanComments : List Char → List Char
  | [] => []
  | [c] => [c]
  | c1 :: c2 :: rest =>
    if c1 ≠ '\\' ∧ c2 = '%' then c1 :: scanComments (dropLine rest)
    else c1 :: scanComments (c2 :: rest)
  termination_by s => s.length
  decreasing_by
    · simp only [List.length_cons]
      have := dropWhile_length_le (fun c => decide (c ≠ '\n')) rest
      simp only [dropLine]
      omega
    · simp [List.length_cons]

/-- `strip_comments`: the `^%` alternative can only fire at the start. -/
def stripComments (s : List Char) : List Char :=
  match s with
  | c :: rest => if c = '%' then scanComments (dropLine rest) else scanComments (c :: rest)
  | [] => scanComments []

-- ----------------------
-- The inclusion-directive matchers
-- ----------------------

/-- `\s*` (same whitespace class as Python `re`). -/
def skipWs (s : List Char) : List Char := s.dropWhile pySpace

/-- `\s*\{([^}]+)\}` — used by the braced `\input` and by `\include` and
`\import` after their literals. -/
def wsBraceGroupPlus (s : List Char) : Option (List Char × List Char) :=
  match skipWs s with
  | '{' :: r => braceGroupPlus r
  | _ => none

/-- `\s*\{([^}]*)\}` — used by `\includeonly`. -/
def wsBraceGroupStar (s : List Char) : Option (List Char × List Char) :=
  match skipWs s with
  | '{' :: r => braceGroupStar r
  | _ => none

/-- `INPUT_BRACED_RX = \\input\s*\{([^}]+)\}`. -/
def tryInputBraced (s : List Char) : Option (List Char × List Char) :=
  match matchLit "\\input".data s with
  | some r => wsBraceGroupPlus r
  | none => none

/-- `INPUT_SPACEFORM_RX = \\input\s+([^\s%]+)`. -/
def tryInputSpace (s : List Char) : Option (List Char × List Char) :=
  match matchLit "\\input".data s with
  | none => none
  | some r =>
    match r with
    | c :: r2 =>
      if pySpace c then
        let r3 := skipWs r2
        let tok := r3.takeWhile (fun d => !pySpace d && d ≠ '%')
        if tok = [] then none else some (tok, r3.drop tok.length)
      else none
    | [] => none

/-- `INCLUDE_RX = \\include\s*\{([^}]+)\}`. -/
def tryInclude (s : List Char) : Option (List Char × List Char) :=
  match matchLit "\\include".data s with
  | some r => wsBraceGroupPlus r
  | none => none

/-- `INCLUDEONLY_RX = \\includeonly\s*\{([^}]*)\}`. -/
def tryIncludeonly (s : List Char) : Option (List Char × List Char) :=
  match matchLit "\\includeonly".data s with
  | some r => wsBraceGroupStar r
  | none => none

/-- `IMPORT_RX = \\import\s*\{([^}]+)\}\s*\{([^}]+)\}` (two groups). -/
def tryImport2 (lit : List Char) (s : List Char) :
    Option ((List Char × List Char) × List Char) :=
  match matchLit lit s with
  | none => none
  | some r =>
    match wsBraceGroupPlus r with
    | none => none
    | some (g1, r1) =>
      match wsBraceGroupPlus r1 with
      | none => none
      | some (g2, r2) => some ((g1, g2), r2)

/-- `IMPORT_RX`. -/
def tryImport (s : List Char) : Option ((List Char × List Char) × List Char) :=
  tryImport2 "\\import".data s

/-- `SUBIMPORT_RX`. -/
def trySubimport (s : List Char) : Option ((List Char × List Char) × List Char) :=
  tryImport2 "\\subimport".data s

-- Length bounds: every successful match consumes at least one character.

theorem matchLit_length : ∀ {l s r : List Char}, matchLit l s = some r →
    s.length = l.length + r.length := by
  intro l
  induction l with
  | nil => intro s r h; simp [matchLit] at h; simp [h]
  | cons c cs ih =>
    intro s r h
    cases s with
    | nil => simp [matchLit] at h
    | cons d ds =>
      simp only [matchLit] at h
      by_cases hd : d = c
      · rw [if_pos hd] at h
        have := ih h
        simp only [List.length_cons, this]
        omega
      · rw [if_neg hd] at h
        cases h

theorem braceGroupStar_length : ∀ {s g r : List Char},
    braceGroupStar s = some (g, r) → r.length < s.length := by
  intro s
  induction s with
  | nil => intro g r h; simp [braceGroupStar] at h
  | cons c cs ih =>
    intro g r h
    simp only [braceGroupStar] at h
    by_cases hc : c = '}'
    · rw [if_pos hc] at h
      simp only [Option.some.injEq, Prod.mk.injEq] at h
      rw [← h.2]
      simp
    · rw [if_neg hc] at h
      cases hb : braceGroupStar cs with
      | none => rw [hb] at h; cases h
      | some p =>
        obtain ⟨g0, r0⟩ := p
        rw [hb] at h
        simp only [Option.some.injEq, Prod.mk.injEq] at h
        have := ih hb
        rw [← h.2]
        simp only [List.length_cons]
        omega

theorem braceGroupPlus_length {s g r : List Char}
    (h : braceGroupPlus s = some (g, r)) : r.length < s.length := by
  unfold braceGroupPlus at h
  cases hb : braceGroupStar s with
  | none => rw [hb] at h; cases h
  | some p =>
    obtain ⟨g0, r0⟩ := p
    rw [hb] at h
    simp only [] at h
    by_cases hg : g0 = []
    · rw [if_pos hg] at h; cases h
    · rw [if_neg hg] at h
      simp only [Option.some.injEq, Prod.mk.injEq] at h
      rw [← h.2]
      exact braceGroupStar_length hb

theorem wsBraceGroupPlus_length {s g r : List Char}
    (h : wsBraceGroupPlus s = some (g, r)) : r.length < s.length := by
  unfold wsBraceGroupPlus at h
  split at h
  · next r1 heq =>
    have h1 := braceGroupPlus_length h
    have h2 := dropWhile_length_le pySpace s
    rw [show s.dropWhile pySpace = skipWs s from rfl, heq] at h2
    simp only [List.length_cons] at h2
    omega
  · cases h

theorem wsBraceGroupStar_length {s g r : List Char}
    (h : wsBraceGroupStar s = some (g, r)) : r.length < s.length := by
  unfold wsBraceGroupStar at h
  split at h
  · next r1 heq =>
    have h1 := braceGroupStar_length h
    have h2 := dropWhile_length_le pySpace s
    rw [show s.dropWhile pySpace = skipWs s from rfl, heq] at h2
    simp only [List.length_cons] at h2
    omega
  · cases h

theorem tryInputBraced_length {s g r : List Char}
    (h : tryInputBraced s = some (g, r)) : r.length < s.length := by
  unfold tryInputBraced at h
  split at h
  · next rest hm =>
    have h1 := wsBraceGroupPlus_length h
    have h2 := matchLit_length hm
    omega
  · cases h

theorem tryInputSpace_length {s g r : List Char}
    (h : tryInputSpace s = some (g, r)) : r.length < s.length := by
  unfold tryInputSpace at h
  split at h
  · cases h
  · next rest hm =>
    have h2 := matchLit_length hm
    split at h
    · next c r2 =>
      split at h
      · next hc =>
        simp only [] at h
        split at h
        · cases h
        · next htok =>
          simp only [Option.some.injEq, Prod.mk.injEq] at h
          have h3 : r.length ≤ (skipWs r2).length := by
            rw [← h.2]
            simp [List.length_drop]
          have h4 := dropWhile_length_le pySpace r2
          have h5 : (skipWs r2).length ≤ r2.length := h4
          simp only [List.length_cons] at h2
          simp only [h2]
          have : "\\input".data.length = 6 := by decide
          omega
      · cases h
    · cases h

theorem tryInclude_length {s g r : List Char}
    (h : tryInclude s = some (g, r)) : r.length < s.length := by
  unfold tryInclude at h
  split at h
  · next rest hm =>
    have h1 := wsBraceGroupPlus_length h
    have h2 := matchLit_length hm
    omega
  · cases h

theorem tryIncludeonly_length {s g r : List Char}
    (h : tryIncludeonly s = some (g, r)) : r.length < s.length := by
  unfold tryIncludeonly at h
  split at h
  · next rest hm =>
    have h1 := wsBraceGroupStar_length h
    have h2 := matchLit_length hm
    omega
  · cases h

theorem tryImport2_length {lit : List Char} :
    ∀ {s : List Char} {g : List Char × List Char} {r : List Char},
    tryImport2 lit s = some (g, r) → r.length < s.length := by
  intro s g r h
  unfold tryImport2 at h
  split at h
  · cases h
  · next rest hm =>
    have h2 := matchLit_length hm
    split at h
    · cases h
    · next g1 r1 hw =>
      have h3 := wsBraceGroupPlus_length hw
      split at h
      · cases h
      · next g2 r2 hw2 =>
        have h4 := wsBraceGroupPlus_length hw2
        simp only [Option.some.injEq, Prod.mk.injEq] at h
        rw [← h.2]
        omega

theorem tryImport_length {s : List Char} {g : List Char × List Char} {r : List Char}
    (h : tryImport s = some (g, r)) : r.length < s.length :=
  tryImport2_length h

theorem trySubimport_length {s : List Char} {g : List Char × List Char} {r : List Char}
    (h : trySubimport s = some (g, r)) : r.length < s.length :=
  tryImport2_length h

-- ----------------------
-- re.sub with a state-threading replacement callback
-- ----------------------

/-- `PATTERN.sub(repl, text)` where `repl` is a closure that mutates shared
state (the `visited` set of `load_and_expand`): scan left to right, replace
each match by `repl`'s output, resume after the match, and never rescan a
replacement. `hTry` certifies that a match consumes at least one
character. -/
def regexSubSt {σ γ : Type} (try_ : List Char → Option (γ × List Char))
    (hTry : ∀ s g r, try_ s = some (g, r) → r.length < s.length)
    (repl : σ → γ → σ × List Char) : σ → List Char → σ × List Char
  | st, [] => (st, [])
  | st, c :: cs =>
    match h : try_ (c :: cs) with
    | some (g, rest) =>
      let p1 := repl st g
      let p2 := regexSubSt try_ hTry repl p1.1 rest
      (p2.1, p1.2 ++ p2.2)
    | none =>
      let p := regexSubSt try_ hTry repl st cs
      (p.1, c :: p.2)
  termination_by _ s => s.length
  decreasing_by
    · exact hTry _ _ _ h
    · simp [List.length_cons]

theorem regexSubSt_nil {σ γ : Type} (try_ : List Char → Option (γ × List Char))
    (hTry : ∀ s g r, try_ s = some (g, r) → r.length < s.length)
    (repl : σ → γ → σ × List Char) (st : σ) :
    regexSubSt try_ hTry repl st [] = (st, []) := by
  rw [regexSubSt]

theorem regexSubSt_match {σ γ : Type} {try_ : List Char → Option (γ × List Char)}
    {hTry : ∀ s g r, try_ s = some (g, r) → r.length < s.length}
    {repl : σ → γ → σ × List Char} {st : σ} {c : Char} {cs : List Char}
    {g : γ} {rest : List Char} (h : try_ (c :: cs) = some (g, rest)) :
    regexSubSt try_ hTry repl st (c :: cs) =
      ((regexSubSt try_ hTry repl (repl st g).1 rest).1,
        (repl st g).2 ++ (regexSubSt try_ hTry repl (repl st g).1 rest).2) := by
  rw [regexSubSt]
  split
  · next g2 rest2 heq =>
    rw [h] at heq
    injection heq with heq2
    injection heq2 with e1 e2
    subst e1
    subst e2
    rfl
  · next heq =>
    rw [h] at heq
    cases heq

theorem regexSubSt_nomatch {σ γ : Type} {try_ : List Char → Option (γ × List Char)}
    {hTry : ∀ s g r, try_ s = some (g, r) → r.length < s.length}
    {repl : σ → γ → σ × List Char} {st : σ} {c : Char} {cs : List Char}
    (h : try_ (c :: cs) = none) :
    regexSubSt try_ hTry repl st (c :: cs) =
      ((regexSubSt try_ hTry repl st cs).1, c :: (regexSubSt try_ hTry repl st cs).2) := by
  rw [regexSubSt]
  split
  · next g2 rest2 heq =>
    rw [h] at heq
    cases heq
  · rfl

/-- Scanning a backslash-free segment leaves it untouched (every inclusion
directive begins with a backslash). -/
theorem regexSubSt_clean_lead {σ γ : Type} {try_ : List Char → Option (γ × List Char)}
    {hTry : ∀ s g r, try_ s = some (g, r) → r.length < s.length}
    {repl : σ → γ → σ × List Char}
    (hBS : ∀ c cs, c ≠ '\\' → try_ (c :: cs) = none) :
    ∀ (xs : List Char), (∀ c ∈ xs, c ≠ '\\') → ∀ (st : σ) (ys : List Char),
      regexSubSt try_ hTry repl st (xs ++ ys) =
        ((regexSubSt try_ hTry repl st ys).1,
          xs ++ (regexSubSt try_ hTry repl st ys).2) := by
  intro xs
  induction xs with
  | nil => intro _ st ys; simp
  | cons c cs ih =>
    intro hclean st ys
    have hc : c ≠ '\\' := hclean c (List.mem_cons_self _ _)
    rw [List.cons_append, regexSubSt_nomatch (hBS c _ hc),
      ih (fun d hd => hclean d (List.mem_cons_of_mem _ hd)) st ys]
    simp

/-- Scanning a fully backslash-free text is the identity. -/
theorem regexSubSt_clean_id {σ γ : Type} {try_ : List Char → Option (γ × List Char)}
    {hTry : ∀ s g r, try_ s = some (g, r) → r.length < s.length}
    {repl : σ → γ → σ × List Char}
    (hBS : ∀ c cs, c ≠ '\\' → try_ (c :: cs) = none)
    (xs : List Char) (hclean : ∀ c ∈ xs, c ≠ '\\') (st : σ) :
    regexSubSt try_ hTry repl st xs = (st, xs) := by
  have h2 := @regexSubSt_clean_lead σ γ try_ hTry repl hBS xs hclean st []
  rw [List.append_nil] at h2
  rw [h2, regexSubSt_nil]
  simp

/-- One directive at a backslash the matcher rejects: the scan walks past. -/
theorem regexSubSt_skip_at {σ γ : Type} {try_ : List Char → Option (γ × List Char)}
    {hTry : ∀ s g r, try_ s = some (g, r) → r.length < s.length}
    {repl : σ → γ → σ × List Char}
    (hBS : ∀ c cs, c ≠ '\\' → try_ (c :: cs) = none)
    {a : List Char} (ha : ∀ c ∈ a, c ≠ '\\') {rest : List Char}
    (h : try_ ('\\' :: rest) = none) (st : σ) :
    regexSubSt try_ hTry repl st (a ++ '\\' :: rest) =
      ((regexSubSt try_ hTry repl st rest).1,
        a ++ '\\' :: (regexSubSt try_ hTry repl st rest).2) := by
  rw [regexSubSt_clean_lead hBS a ha st ('\\' :: rest), regexSubSt_nomatch h]

/-- One directive at a backslash the matcher accepts: the replacement is
spliced in and the scan resumes after the match. -/
theorem regexSubSt_fire_at {σ γ : Type} {try_ : List Char → Option (γ × List Char)}
    {hTry : ∀ s g r, try_ s = some (g, r) → r.length < s.length}
    {repl : σ → γ → σ × List Char}
    (hBS : ∀ c cs, c ≠ '\\' → try_ (c :: cs) = none)
    {a : List Char} (ha : ∀ c ∈ a, c ≠ '\\') {rest : List Char}
    {g : γ} {after : List Char} (h : try_ ('\\' :: rest) = some (g, after)) (st : σ) :
    regexSubSt try_ hTry repl st (a ++ '\\' :: rest) =
      ((regexSubSt try_ hTry repl (repl st g).1 after).1,
        a ++ (repl st g).2 ++ (regexSubSt try_ hTry repl (repl st g).1 after).2) := by
  rw [regexSubSt_clean_lead hBS a ha st ('\\' :: rest), regexSubSt_match h]
  simp [List.append_assoc]

-- ----------------------
-- Project expansion (load_and_expand)
-- ----------------------

/-- The project's file system: absolute path to full text. -/
abbrev FileSys := List (List Char × List Char)

/-- `read_file`, returning `none` for `FileNotFoundError`. -/
def readFile (fs : FileSys) (p : List Char) : Option (List Char) :=
  (fs.find? (fun q => q.1 = p)).map (·.2)

/-- The inline marker substituted for a missing include target. -/
def missingMsg (abs_path : List Char) : List Char :=
  "% [depgraph] missing file: ".data ++ abs_path ++ ['\n']

/-- The inline marker substituted for an `\includeonly`-skipped target. -/
def skipMsg (name : List Char) : List Char :=
  "% [depgraph] skipped by \\includeonly: ".data ++ name ++ ['\n']

/-- `collect_includeonly`: all entries of all `\includeonly{...}` groups of
the comment-stripped entry text (set membership is modelled by list
membership). -/
def collect_includeonly (text : List Char) : List (List Char) :=
  (regexSubSt tryIncludeonly (fun _ _ _ h => tryIncludeonly_length h)
    (fun acc g => (acc ++ usesEntries g, [])) [] (stripComments text)).1

/-- The recursive `expand(path, current_dir)` closure of `load_and_expand`,
with the file system, the working directory, the `\includeonly` allow-list
and the recursion fuel made explicit.  The `visited` set is threaded
through every substitution in source order: `\import`, `\subimport`,
braced `\input`, bare `\input`, then `\include`.  The fuel only bounds the
recursion depth, which the visited-set guard keeps at most the number of
distinct files. -/
def expand (fs : FileSys) (cwd : List Char) (includeonly : List (List Char)) :
    Nat → List Char → List Char → List (List Char) → List Char × List (List Char)
  | 0, _, _, visited => ([], visited)
  | fuel + 1, path, current_dir, visited =>
    let abs_path := os_abspath cwd path
    if abs_path ∈ visited then ([], visited)
    else
      let visited := abs_path :: visited
      match readFile fs abs_path with
      | none => (missingMsg abs_path, visited)
      | some raw =>
        let text := stripComments raw
        let replImport : List (List Char) → (List Char × List Char) →
            List (List Char) × List Char := fun vis g =>
          let inc_dir := norm_join current_dir g.1
          let inc_path := ensure_tex_ext (norm_join inc_dir g.2)
          let p := expand fs cwd includeonly fuel inc_path inc_dir vis
          (p.2, p.1)
        let p1 := regexSubSt tryImport (fun _ _ _ h => tryImport_length h)
          replImport visited text
        let p2 := regexSubSt trySubimport (fun _ _ _ h => trySubimport_length h)
          replImport p1.1 p1.2
        let replInput : List (List Char) → List Char →
            List (List Char) × List Char := fun vis g =>
          let rel := pyStrip g
          let inc_path := ensure_tex_ext (norm_join current_dir rel)
          let inc_dir := dirname inc_path
          let p := expand fs cwd includeonly fuel inc_path inc_dir vis
          (p.2, p.1)
        let p3 := regexSubSt tryInputBraced (fun _ _ _ h => tryInputBraced_length h)
          replInput p2.1 p2.2
        let p4 := regexSubSt tryInputSpace (fun _ _ _ h => tryInputSpace_length h)
          replInput p3.1 p3.2
        let replInclude : List (List Char) → List Char →
            List (List Char) × List Char := fun vis g =>
          let name := pyStrip g
          let base_name := basename name
          if includeonly ≠ [] ∧ base_name ∉ includeonly then (vis, skipMsg name)
          else
            let inc_path := ensure_tex_ext (norm_join current_dir name)
            let inc_dir := dirname inc_path
            let p := expand fs cwd includeonly fuel inc_path inc_dir vis
            (p.2, p.1)
        let p5 := regexSubSt tryInclude (fun _ _ _ h => tryInclude_length h)
          replInclude p4.1 p4.2
        (p5.2, p5.1)

/-- `load_and_expand(main_path)`: `none` models the uncaught
`FileNotFoundError` on a missing entry document (fatal). -/
def load_and_expand (fs : FileSys) (cwd : List Char) (fuel : Nat)
    (main_path : List Char) : Option (List Char) :=
  let main_abs := os_abspath cwd main_path
  let project_dir := dirname main_abs
  match readFile fs main_abs with
  | none => none
  | some main_text =>
    let includeonly := collect_includeonly main_text
    some (expand fs cwd includeonly fuel main_abs project_dir []).1

-- ----------------------
-- Cleanliness of text segments and matcher evaluation lemmas
-- ----------------------

/-- A text segment free of backslashes and comment markers: the expansion
passes and the comment stripper leave it untouched. -/
def cleanSeg (s : List Char) : Prop := ∀ c ∈ s, c ≠ '\\' ∧ c ≠ '%'

instance (s : List Char) : Decidable (cleanSeg s) := by
  unfold cleanSeg
  infer_instance

theorem cleanSeg_append {a b : List Char} (ha : cleanSeg a) (hb : cleanSeg b) :
    cleanSeg (a ++ b) := by
  intro c hc
  rcases List.mem_append.mp hc with h | h
  · exact ha c h
  · exact hb c h

theorem cleanSeg_noBS {s : List Char} (h : cleanSeg s) : ∀ c ∈ s, c ≠ '\\' :=
  fun c hc => (h c hc).1

theorem cleanSeg_noPct {s : List Char} (h : cleanSeg s) : ∀ c ∈ s, c ≠ '%' :=
  fun c hc => (h c hc).2

/-- The group scan `([^}]*)\}` applied at a brace-free group. -/
theorem braceGroupStar_append {name : List Char} (h : '}' ∉ name) (post : List Char) :
    braceGroupStar (name ++ '}' :: post) = some (name, post) := by
  induction name with
  | nil => simp [braceGroupStar]
  | cons c cs ih =>
    have hc : c ≠ '}' := fun hcon => h (hcon ▸ List.mem_cons_self _ _)
    rw [List.cons_append]
    simp only [braceGroupStar]
    rw [if_neg hc, ih (fun hm => h (List.mem_cons_of_mem _ hm))]

/-- `\input{...}` matches at its own backslash. -/
theorem tryInputBraced_at {name : List Char} (hb : '}' ∉ name) (hne : name ≠ [])
    (post : List Char) :
    tryInputBraced ('\\' :: 'i' :: 'n' :: 'p' :: 'u' :: 't' :: '{' ::
        (name ++ '}' :: post)) =
      some (name, post) := by
  unfold tryInputBraced
  have h1 : matchLit "\\input".data
      ('\\' :: 'i' :: 'n' :: 'p' :: 'u' :: 't' :: '{' :: (name ++ '}' :: post)) =
      some ('{' :: (name ++ '}' :: post)) := rfl
  rw [h1]
  simp only []
  unfold wsBraceGroupPlus
  have h2 : skipWs ('{' :: (name ++ '}' :: post)) = '{' :: (name ++ '}' :: post) := rfl
  rw [h2]
  simp only []
  unfold braceGroupPlus
  rw [braceGroupStar_append hb post]
  simp only []
  rw [if_neg hne]

-- The other four inclusion matchers reject an `\input{` occurrence.

theorem tryImport_at_input (rest : List Char) :
    tryImport ('\\' :: 'i' :: 'n' :: rest) = none := rfl

theorem trySubimport_at_input (rest : List Char) :
    trySubimport ('\\' :: 'i' :: 'n' :: rest) = none := rfl

theorem tryInclude_at_input (rest : List Char) :
    tryInclude ('\\' :: 'i' :: 'n' :: 'p' :: rest) = none := rfl

theorem tryInputSpace_at_braced (rest : List Char) :
    tryInputSpace ('\\' :: 'i' :: 'n' :: 'p' :: 'u' :: 't' :: '{' :: rest) = none := rfl

theorem tryIncludeonly_at_input (rest : List Char) :
    tryIncludeonly ('\\' :: 'i' :: 'n' :: 'p' :: rest) = none := rfl

-- Every matcher rejects a position that does not start with a backslash.

theorem matchLit_bs {lit : List Char} {ls : List Char} (hlit : lit = '\\' :: ls)
    {c : Char} (hc : c ≠ '\\') (cs : List Char) : matchLit lit (c :: cs) = none := by
  subst hlit
  simp only [matchLit]
  rw [if_neg hc]

theorem tryImport_bs (c : Char) (cs : List Char) (hc : c ≠ '\\') :
    tryImport (c :: cs) = none := by
  unfold tryImport tryImport2
  rw [matchLit_bs rfl hc]

theorem trySubimport_bs (c : Char) (cs : List Char) (hc : c ≠ '\\') :
    trySubimport (c :: cs) = none := by
  unfold trySubimport tryImport2
  rw [matchLit_bs rfl hc]

theorem tryInputBraced_bs (c : Char) (cs : List Char) (hc : c ≠ '\\') :
    tryInputBraced (c :: cs) = none := by
  unfold tryInputBraced
  rw [matchLit_bs rfl hc]

theorem tryInputSpace_bs (c : Char) (cs : List Char) (hc : c ≠ '\\') :
    tryInputSpace (c :: cs) = none := by
  unfold tryInputSpace
  rw [matchLit_bs rfl hc]

theorem tryInclude_bs (c : Char) (cs : List Char) (hc : c ≠ '\\') :
    tryInclude (c :: cs) = none := by
  unfold tryInclude
  rw [matchLit_bs rfl hc]

theorem tryIncludeonly_bs (c : Char) (cs : List Char) (hc : c ≠ '\\') :
    tryIncludeonly (c :: cs) = none := by
  unfold tryIncludeonly
  rw [matchLit_bs rfl hc]

-- ----------------------
-- Comment stripping is the identity on percent-free text
-- ----------------------

theorem scanComments_clean : ∀ (s : List Char), (∀ c ∈ s, c ≠ '%') →
    scanComments s = s := by
  intro s
  induction s with
  | nil => intro _; simp [scanComments]
  | cons c cs ih =>
    intro h
    cases cs with
    | nil => simp [scanComments]
    | cons c2 rest =>
      have h2 : c2 ≠ '%' := h c2 (List.mem_cons_of_mem _ (List.mem_cons_self _ _))
      rw [scanComments]
      rw [if_neg (fun hcon => h2 hcon.2)]
      rw [ih (fun d hd => h d (List.mem_cons_of_mem _ hd))]

theorem stripComments_clean {s : List Char} (h : ∀ c ∈ s, c ≠ '%') :
    stripComments s = s := by
  cases s with
  | nil => simp [stripComments, scanComments]
  | cons c cs =>
    have hc : c ≠ '%' := h c (List.mem_cons_self _ _)
    simp only [stripComments]
    rw [if_neg hc]
    exact scanComments_clean _ h

-- ----------------------
-- Whole-pass evaluation on scenario-shaped texts
-- ----------------------

theorem regexSubSt_skip_one {σ γ : Type} {try_ : List Char → Option (γ × List Char)}
    {hTry : ∀ s g r, try_ s = some (g, r) → r.length < s.length}
    {repl : σ → γ → σ × List Char}
    (hBS : ∀ c cs, c ≠ '\\' → try_ (c :: cs) = none)
    {a rest : List Char} (ha : ∀ c ∈ a, c ≠ '\\') (hrest : ∀ c ∈ rest, c ≠ '\\')
    (hfail : try_ ('\\' :: rest) = none) (st : σ) :
    regexSubSt try_ hTry repl st (a ++ '\\' :: rest) = (st, a ++ '\\' :: rest) := by
  rw [regexSubSt_skip_at hBS ha hfail, regexSubSt_clean_id hBS rest hrest]

theorem regexSubSt_skip_two {σ γ : Type} {try_ : List Char → Option (γ × List Char)}
    {hTry : ∀ s g r, try_ s = some (g, r) → r.length < s.length}
    {repl : σ → γ → σ × List Char}
    (hBS : ∀ c cs, c ≠ '\\' → try_ (c :: cs) = none)
    {a m rest2 : List Char} (ha : ∀ c ∈ a, c ≠ '\\') (hm : ∀ c ∈ m, c ≠ '\\')
    (hrest2 : ∀ c ∈ rest2, c ≠ '\\')
    (hfail1 : try_ ('\\' :: (m ++ '\\' :: rest2)) = none)
    (hfail2 : try_ ('\\' :: rest2) = none) (st : σ) :
    regexSubSt try_ hTry repl st (a ++ '\\' :: (m ++ '\\' :: rest2)) =
      (st, a ++ '\\' :: (m ++ '\\' :: rest2)) := by
  rw [regexSubSt_skip_at hBS ha hfail1, regexSubSt_skip_one hBS hm hrest2 hfail2]

theorem regexSubSt_fire_one {σ γ : Type} {try_ : List Char → Option (γ × List Char)}
    {hTry : ∀ s g r, try_ s = some (g, r) → r.length < s.length}
    {repl : σ → γ → σ × List Char}
    (hBS : ∀ c cs, c ≠ '\\' → try_ (c :: cs) = none)
    {a rest : List Char} (ha : ∀ c ∈ a, c ≠ '\\')
    {g : γ} {after : List Char} (h : try_ ('\\' :: rest) = some (g, after))
    (hafter : ∀ c ∈ after, c ≠ '\\') (st : σ) :
    regexSubSt try_ hTry repl st (a ++ '\\' :: rest) =
      ((repl st g).1, a ++ (repl st g).2 ++ after) := by
  rw [regexSubSt_fire_at hBS ha h, regexSubSt_clean_id hBS after hafter]

theorem regexSubSt_fire_two {σ γ : Type} {try_ : List Char → Option (γ × List Char)}
    {hTry : ∀ s g r, try_ s = some (g, r) → r.length < s.length}
    {repl : σ → γ → σ × List Char}
    (hBS : ∀ c cs, c ≠ '\\' → try_ (c :: cs) = none)
    {a m b rest1 rest2 : List Char} (ha : ∀ c ∈ a, c ≠ '\\')
    (hm : ∀ c ∈ m, c ≠ '\\') (hb : ∀ c ∈ b, c ≠ '\\')
    {g1 g2 : γ}
    (h1 : try_ ('\\' :: rest1) = some (g1, m ++ '\\' :: rest2))
    (h2 : try_ ('\\' :: rest2) = some (g2, b)) (st : σ) :
    regexSubSt try_ hTry repl st (a ++ '\\' :: rest1) =
      ((repl (repl st g1).1 g2).1,
        a ++ (repl st g1).2 ++ (m ++ (repl (repl st g1).1 g2).2 ++ b)) := by
  rw [regexSubSt_fire_at hBS ha h1, regexSubSt_fire_one hBS hm h2 hb]

-- ----------------------
-- Per-file evaluation of `expand`
-- ----------------------

/-- A visited file contributes nothing and is not re-expanded. -/
theorem expand_visited {fs : FileSys} {cwd : List Char} {io : List (List Char)}
    (fuel : Nat) {path dir : List Char} {vis : List (List Char)}
    (h : os_abspath cwd path ∈ vis) :
    expand fs cwd io (fuel + 1) path dir vis = ([], vis) := by
  simp only [expand]
  rw [if_pos h]

/-- A directive-free, comment-free file expands to itself. -/
theorem expand_clean {fs : FileSys} {cwd : List Char} {io : List (List Char)}
    (fuel : Nat) {path dir : List Char} {vis : List (List Char)} {content : List Char}
    (hnin : os_abspath cwd path ∉ vis)
    (hread : readFile fs (os_abspath cwd path) = some content)
    (hclean : cleanSeg content) :
    expand fs cwd io (fuel + 1) path dir vis =
      (content, os_abspath cwd path :: vis) := by
  simp only [expand]
  rw [if_neg hnin, hread]
  simp only []
  rw [stripComments_clean (cleanSeg_noPct hclean)]
  rw [regexSubSt_clean_id tryImport_bs content (cleanSeg_noBS hclean)]
  simp only []
  rw [regexSubSt_clean_id trySubimport_bs content (cleanSeg_noBS hclean)]
  simp only []
  rw [regexSubSt_clean_id tryInputBraced_bs content (cleanSeg_noBS hclean)]
  simp only []
  rw [regexSubSt_clean_id tryInputSpace_bs content (cleanSeg_noBS hclean)]
  simp only []
  rw [regexSubSt_clean_id tryInclude_bs content (cleanSeg_noBS hclean)]

-- Membership helpers for backslash-freedom of directive-shaped texts.

theorem noBS_cons {c0 : Char} (h0 : c0 ≠ '\\') {t : List Char}
    (ht : ∀ c ∈ t, c ≠ '\\') : ∀ c ∈ c0 :: t, c ≠ '\\' := by
  intro c hc
  rcases List.mem_cons.mp hc with rfl | hc
  · exact h0
  · exact ht c hc

theorem noBS_append {x y : List Char} (hx : ∀ c ∈ x, c ≠ '\\')
    (hy : ∀ c ∈ y, c ≠ '\\') : ∀ c ∈ x ++ y, c ≠ '\\' := by
  intro c hc
  rcases List.mem_append.mp hc with h | h
  · exact hx c h
  · exact hy c h

/-- The body of one braced input directive (everything after its own
backslash) is backslash-free when the name and the trailing text are. -/
theorem noBS_inputShape {name b : List Char} (hname : ∀ c ∈ name, c ≠ '\\')
    (hb : ∀ c ∈ b, c ≠ '\\') :
    ∀ c ∈ ('i' :: 'n' :: 'p' :: 'u' :: 't' :: '{' :: (name ++ '}' :: b)),
      c ≠ '\\' := by
  refine noBS_cons (by decide) (noBS_cons (by decide) (noBS_cons (by decide)
    (noBS_cons (by decide) (noBS_cons (by decide) (noBS_cons (by decide) ?_)))))
  exact noBS_append hname (noBS_cons (by decide) hb)

theorem noPct_cons {c0 : Char} (h0 : c0 ≠ '%') {t : List Char}
    (ht : ∀ c ∈ t, c ≠ '%') : ∀ c ∈ c0 :: t, c ≠ '%' := by
  intro c hc
  rcases List.mem_cons.mp hc with rfl | hc
  · exact h0
  · exact ht c hc

theorem noPct_append {x y : List Char} (hx : ∀ c ∈ x, c ≠ '%')
    (hy : ∀ c ∈ y, c ≠ '%') : ∀ c ∈ x ++ y, c ≠ '%' := by
  intro c hc
  rcases List.mem_append.mp hc with h | h
  · exact hx c h
  · exact hy c h

theorem noPct_inputShape {name b : List Char} (hname : ∀ c ∈ name, c ≠ '%')
    (hb : ∀ c ∈ b, c ≠ '%') :
    ∀ c ∈ ('i' :: 'n' :: 'p' :: 'u' :: 't' :: '{' :: (name ++ '}' :: b)),
      c ≠ '%' := by
  refine noPct_cons (by decide) (noPct_cons (by decide) (noPct_cons (by decide)
    (noPct_cons (by decide) (noPct_cons (by decide) (noPct_cons (by decide) ?_)))))
  exact noPct_append hname (noPct_cons (by decide) hb)

/-- A file whose stripped text is one clean segment, one braced `\input`
directive and one clean tail expands to the leading segment, the recursive
expansion of the directive target, and the tail, provided the recursive
expansion yields directive-free text. -/
theorem expand_one_input {fs : FileSys} {cwd : List Char} {io : List (List Char)}
    (fuel : Nat) {path dir : List Char} {vis : List (List Char)}
    {a name b : List Char}
    (hnin : os_abspath cwd path ∉ vis)
    (hread : readFile fs (os_abspath cwd path) =
      some (a ++ '\\' :: 'i' :: 'n' :: 'p' :: 'u' :: 't' :: '{' ::
        (name ++ '}' :: b)))
    (ha : cleanSeg a) (hb : cleanSeg b) (hname : cleanSeg name)
    (hnbrace : '}' ∉ name) (hne : name ≠ [])
    (hinner : cleanSeg (expand fs cwd io fuel
      (ensure_tex_ext (norm_join dir (pyStrip name)))
      (dirname (ensure_tex_ext (norm_join dir (pyStrip name))))
      (os_abspath cwd path :: vis)).1) :
    expand fs cwd io (fuel + 1) path dir vis =
      (a ++ (expand fs cwd io fuel
          (ensure_tex_ext (norm_join dir (pyStrip name)))
          (dirname (ensure_tex_ext (norm_join dir (pyStrip name))))
          (os_abspath cwd path :: vis)).1 ++ b,
        (expand fs cwd io fuel
          (ensure_tex_ext (norm_join dir (pyStrip name)))
          (dirname (ensure_tex_ext (norm_join dir (pyStrip name))))
          (os_abspath cwd path :: vis)).2) := by
  have haBS := cleanSeg_noBS ha
  have hbBS := cleanSeg_noBS hb
  have hrestBS := noBS_inputShape (cleanSeg_noBS hname) hbBS
  have hpct : ∀ c ∈ (a ++ '\\' :: 'i' :: 'n' :: 'p' :: 'u' :: 't' :: '{' ::
      (name ++ '}' :: b)), c ≠ '%' :=
    noPct_append (cleanSeg_noPct ha)
      (noPct_cons (by decide) (noPct_inputShape (cleanSeg_noPct hname)
        (cleanSeg_noPct hb)))
  simp only [expand]
  rw [if_neg hnin, hread]
  simp only []
  rw [stripComments_clean hpct]
  rw [regexSubSt_skip_one tryImport_bs haBS hrestBS (tryImport_at_input _)]
  simp only []
  rw [regexSubSt_skip_one trySubimport_bs haBS hrestBS (trySubimport_at_input _)]
  simp only []
  rw [regexSubSt_fire_one tryInputBraced_bs haBS (tryInputBraced_at hnbrace hne b) hbBS]
  simp only []
  have hfull : ∀ c ∈ (a ++ (expand fs cwd io fuel
      (ensure_tex_ext (norm_join dir (pyStrip name)))
      (dirname (ensure_tex_ext (norm_join dir (pyStrip name))))
      (os_abspath cwd path :: vis)).1 ++ b), c ≠ '\\' :=
    noBS_append (noBS_append haBS (cleanSeg_noBS hinner)) hbBS
  rw [regexSubSt_clean_id tryInputSpace_bs _ hfull]
  simp only []
  rw [regexSubSt_clean_id tryInclude_bs _ hfull]
/-- `regexSubSt_skip_two`, stated with the split of the tail as an
equation (convenient when the tail arises in nested form). -/
theorem regexSubSt_skip_two_eq {σ γ : Type} {try_ : List Char → Option (γ × List Char)}
    {hTry : ∀ s g r, try_ s = some (g, r) → r.length < s.length}
    {repl : σ → γ → σ × List Char}
    (hBS : ∀ c cs, c ≠ '\\' → try_ (c :: cs) = none)
    {a rest1 m rest2 : List Char} (ha : ∀ c ∈ a, c ≠ '\\')
    (hsplit : rest1 = m ++ '\\' :: rest2)
    (hm : ∀ c ∈ m, c ≠ '\\') (hrest2 : ∀ c ∈ rest2, c ≠ '\\')
    (hfail1 : try_ ('\\' :: rest1) = none)
    (hfail2 : try_ ('\\' :: rest2) = none) (st : σ) :
    regexSubSt try_ hTry repl st (a ++ '\\' :: rest1) = (st, a ++ '\\' :: rest1) := by
  rw [hsplit] at hfail1 ⊢
  exact regexSubSt_skip_two hBS ha hm hrest2 hfail1 hfail2 st

/-- Like `expand_one_input`, for a file containing two braced `\input`
directives separated by clean text: the shared `visited` state is threaded
from the first target's expansion into the second one. -/
theorem expand_two_input {fs : FileSys} {cwd : List Char} {io : List (List Char)}
    (fuel : Nat) {path dir : List Char} {vis : List (List Char)}
    {a n1 m n2 b : List Char}
    (hnin : os_abspath cwd path ∉ vis)
    (hread : readFile fs (os_abspath cwd path) =
      some (a ++ '\\' :: 'i' :: 'n' :: 'p' :: 'u' :: 't' :: '{' ::
        (n1 ++ '}' :: (m ++ '\\' :: 'i' :: 'n' :: 'p' :: 'u' :: 't' :: '{' ::
          (n2 ++ '}' :: b)))))
    (ha : cleanSeg a) (hm : cleanSeg m) (hb : cleanSeg b)
    (hn1 : cleanSeg n1) (hn1brace : '}' ∉ n1) (hn1ne : n1 ≠ [])
    (hn2 : cleanSeg n2) (hn2brace : '}' ∉ n2) (hn2ne : n2 ≠ [])
    (hinner1 : cleanSeg (expand fs cwd io fuel
      (ensure_tex_ext (norm_join dir (pyStrip n1)))
      (dirname (ensure_tex_ext (norm_join dir (pyStrip n1))))
      (os_abspath cwd path :: vis)).1)
    (hinner2 : cleanSeg (expand fs cwd io fuel
      (ensure_tex_ext (norm_join dir (pyStrip n2)))
      (dirname (ensure_tex_ext (norm_join dir (pyStrip n2))))
      (expand fs cwd io fuel
        (ensure_tex_ext (norm_join dir (pyStrip n1)))
        (dirname (ensure_tex_ext (norm_join dir (pyStrip n1))))
        (os_abspath cwd path :: vis)).2).1) :
    expand fs cwd io (fuel + 1) path dir vis =
      (a ++ (expand fs cwd io fuel
          (ensure_tex_ext (norm_join dir (pyStrip n1)))
          (dirname (ensure_tex_ext (norm_join dir (pyStrip n1))))
          (os_abspath cwd path :: vis)).1 ++
        (m ++ (expand fs cwd io fuel
          (ensure_tex_ext (norm_join dir (pyStrip n2)))
          (dirname (ensure_tex_ext (norm_join dir (pyStrip n2))))
          (expand fs cwd io fuel
            (ensure_tex_ext (norm_join dir (pyStrip n1)))
            (dirname (ensure_tex_ext (norm_join dir (pyStrip n1))))
            (os_abspath cwd path :: vis)).2).1 ++ b),
        (expand fs cwd io fuel
          (ensure_tex_ext (norm_join dir (pyStrip n2)))
          (dirname (ensure_tex_ext (norm_join dir (pyStrip n2))))
          (expand fs cwd io fuel
            (ensure_tex_ext (norm_join dir (pyStrip n1)))
            (dirname (ensure_tex_ext (norm_join dir (pyStrip n1))))
            (os_abspath cwd path :: vis)).2).2) := by
  have haBS := cleanSeg_noBS ha
  have hmBS := cleanSeg_noBS hm
  have hbBS := cleanSeg_noBS hb
  have hrest2BS := noBS_inputShape (cleanSeg_noBS hn2) hbBS
  have hmidBS : ∀ c ∈ ('i' :: 'n' :: 'p' :: 'u' :: 't' :: '{' :: (n1 ++ '}' :: m)),
      c ≠ '\\' := noBS_inputShape (cleanSeg_noBS hn1) hmBS
  have hsplit : ('i' :: 'n' :: 'p' :: 'u' :: 't' :: '{' ::
      (n1 ++ '}' :: (m ++ '\\' :: 'i' :: 'n' :: 'p' :: 'u' :: 't' :: '{' ::
        (n2 ++ '}' :: b)))) =
      ('i' :: 'n' :: 'p' :: 'u' :: 't' :: '{' :: (n1 ++ '}' :: m)) ++
        '\\' :: ('i' :: 'n' :: 'p' :: 'u' :: 't' :: '{' :: (n2 ++ '}' :: b)) := by
    simp [List.append_assoc]
  have hpct : ∀ c ∈ (a ++ '\\' :: 'i' :: 'n' :: 'p' :: 'u' :: 't' :: '{' ::
      (n1 ++ '}' :: (m ++ '\\' :: 'i' :: 'n' :: 'p' :: 'u' :: 't' :: '{' ::
        (n2 ++ '}' :: b)))), c ≠ '%' :=
    noPct_append (cleanSeg_noPct ha)
      (noPct_cons (by decide) (noPct_inputShape (cleanSeg_noPct hn1)
        (noPct_append (cleanSeg_noPct hm)
          (noPct_cons (by decide) (noPct_inputShape (cleanSeg_noPct hn2)
            (cleanSeg_noPct hb))))))
  simp only [expand]
  rw [if_neg hnin, hread]
  simp only []
  rw [stripComments_clean hpct]
  rw [regexSubSt_skip_two_eq tryImport_bs haBS hsplit hmidBS hrest2BS
    (tryImport_at_input _) (tryImport_at_input _)]
  simp only []
  rw [regexSubSt_skip_two_eq trySubimport_bs haBS hsplit hmidBS hrest2BS
    (trySubimport_at_input _) (trySubimport_at_input _)]
  simp only []
  rw [regexSubSt_fire_two tryInputBraced_bs haBS hmBS hbBS
    (tryInputBraced_at hn1brace hn1ne
      (m ++ '\\' :: 'i' :: 'n' :: 'p' :: 'u' :: 't' :: '{' :: (n2 ++ '}' :: b)))
    (tryInputBraced_at hn2brace hn2ne b)]
  simp only []
  have hfull : ∀ c ∈ (a ++ (expand fs cwd io fuel
      (ensure_tex_ext (norm_join dir (pyStrip n1)))
      (dirname (ensure_tex_ext (norm_join dir (pyStrip n1))))
      (os_abspath cwd path :: vis)).1 ++
      (m ++ (expand fs cwd io fuel
        (ensure_tex_ext (norm_join dir (pyStrip n2)))
        (dirname (ensure_tex_ext (norm_join dir (pyStrip n2))))
        (expand fs cwd io fuel
          (ensure_tex_ext (norm_join dir (pyStrip n1)))
          (dirname (ensure_tex_ext (norm_join dir (pyStrip n1))))
          (os_abspath cwd path :: vis)).2).1 ++ b)), c ≠ '\\' :=
    noBS_append (noBS_append haBS (cleanSeg_noBS hinner1))
      (noBS_append (noBS_append hmBS (cleanSeg_noBS hinner2)) hbBS)
  rw [regexSubSt_clean_id tryInputSpace_bs _ hfull]
  simp only []
  rw [regexSubSt_clean_id tryInclude_bs _ hfull]

/-- A text with one braced `\input` directive contains no `\includeonly`. -/
theorem collect_one_input {a name b : List Char}
    (ha : cleanSeg a) (hb : cleanSeg b) (hname : cleanSeg name) :
    collect_includeonly (a ++ '\\' :: 'i' :: 'n' :: 'p' :: 'u' :: 't' :: '{' ::
      (name ++ '}' :: b)) = [] := by
  have hpct : ∀ c ∈ (a ++ '\\' :: 'i' :: 'n' :: 'p' :: 'u' :: 't' :: '{' ::
      (name ++ '}' :: b)), c ≠ '%' :=
    noPct_append (cleanSeg_noPct ha)
      (noPct_cons (by decide) (noPct_inputShape (cleanSeg_noPct hname)
        (cleanSeg_noPct hb)))
  unfold collect_includeonly
  rw [stripComments_clean hpct]
  rw [regexSubSt_skip_one tryIncludeonly_bs (cleanSeg_noBS ha)
    (noBS_inputShape (cleanSeg_noBS hname) (cleanSeg_noBS hb))
    (tryIncludeonly_at_input _)]

/-- A text with two braced `\input` directives contains no `\includeonly`. -/
theorem collect_two_input {a n1 m n2 b : List Char}
    (ha : cleanSeg a) (hm : cleanSeg m) (hb : cleanSeg b)
    (hn1 : cleanSeg n1) (hn2 : cleanSeg n2) :
    collect_includeonly (a ++ '\\' :: 'i' :: 'n' :: 'p' :: 'u' :: 't' :: '{' ::
      (n1 ++ '}' :: (m ++ '\\' :: 'i' :: 'n' :: 'p' :: 'u' :: 't' :: '{' ::
        (n2 ++ '}' :: b)))) = [] := by
  have hpct : ∀ c ∈ (a ++ '\\' :: 'i' :: 'n' :: 'p' :: 'u' :: 't' :: '{' ::
      (n1 ++ '}' :: (m ++ '\\' :: 'i' :: 'n' :: 'p' :: 'u' :: 't' :: '{' ::
        (n2 ++ '}' :: b)))), c ≠ '%' :=
    noPct_append (cleanSeg_noPct ha)
      (noPct_cons (by decide) (noPct_inputShape (cleanSeg_noPct hn1)
        (noPct_append (cleanSeg_noPct hm)
          (noPct_cons (by decide) (noPct_inputShape (cleanSeg_noPct hn2)
            (cleanSeg_noPct hb))))))
  have hsplit : ('i' :: 'n' :: 'p' :: 'u' :: 't' :: '{' ::
      (n1 ++ '}' :: (m ++ '\\' :: 'i' :: 'n' :: 'p' :: 'u' :: 't' :: '{' ::
        (n2 ++ '}' :: b)))) =
      ('i' :: 'n' :: 'p' :: 'u' :: 't' :: '{' :: (n1 ++ '}' :: m)) ++
        '\\' :: ('i' :: 'n' :: 'p' :: 'u' :: 't' :: '{' :: (n2 ++ '}' :: b)) := by
    simp [List.append_assoc]
  unfold collect_includeonly
  rw [stripComments_clean hpct]
  rw [regexSubSt_skip_two_eq tryIncludeonly_bs (cleanSeg_noBS ha) hsplit
    (noBS_inputShape (cleanSeg_noBS hn1) (cleanSeg_noBS hm))
    (noBS_inputShape (cleanSeg_noBS hn2) (cleanSeg_noBS hb))
    (tryIncludeonly_at_input _) (tryIncludeonly_at_input _)]

-- ----------------------
-- Claim C5: cyclic inclusion
-- ----------------------

/-- The two-file cyclic project: `A.tex` inputs `B.tex` and `B.tex` inputs
`A.tex` (each directive written out character by character as
`\input{B}` resp. `\input{A}`). -/
def c5FS (preA postA preB postB : List Char) : FileSys :=
  [("/proj/A.tex".data,
    preA ++ '\\' :: 'i' :: 'n' :: 'p' :: 'u' :: 't' :: '{' :: (['B'] ++ '}' :: postA)),
   ("/proj/B.tex".data,
    preB ++ '\\' :: 'i' :: 'n' :: 'p' :: 'u' :: 't' :: '{' :: (['A'] ++ '}' :: postB))]

/-- C5.  Cyclic inclusion terminates: for any recursion budget of at least
three frames, expanding the cyclic two-file project replaces A's directive
by B's content, replaces B's directive (the second visit to A) by the
empty string, and raises no error.  With the directive at the end of A
(`postA = []`) the result is exactly A's own content followed by B's own
content, with no repetition of either. -/
theorem claim_C5 (fuel : Nat) (preA postA preB postB : List Char)
    (hpreA : cleanSeg preA) (hpostA : cleanSeg postA)
    (hpreB : cleanSeg preB) (hpostB : cleanSeg postB) :
    load_and_expand (c5FS preA postA preB postB) "/".data (fuel + 3)
        "/proj/A.tex".data =
      some (preA ++ (preB ++ postB) ++ postA) := by
  have habsA : os_abspath "/".data "/proj/A.tex".data = "/proj/A.tex".data := by decide
  have habsB : os_abspath "/".data "/proj/B.tex".data = "/proj/B.tex".data := by decide
  have hdirA : dirname "/proj/A.tex".data = "/proj".data := by decide
  have hpathB : ensure_tex_ext (norm_join "/proj".data (pyStrip ['B'])) =
      "/proj/B.tex".data := by decide
  have hpathA : ensure_tex_ext (norm_join "/proj".data (pyStrip ['A'])) =
      "/proj/A.tex".data := by decide
  have hdirB : dirname "/proj/B.tex".data = "/proj".data := by decide
  have hreadA : readFile (c5FS preA postA preB postB) "/proj/A.tex".data =
      some (preA ++ '\\' :: 'i' :: 'n' :: 'p' :: 'u' :: 't' :: '{' ::
        (['B'] ++ '}' :: postA)) := rfl
  have hreadB : readFile (c5FS preA postA preB postB) "/proj/B.tex".data =
      some (preB ++ '\\' :: 'i' :: 'n' :: 'p' :: 'u' :: 't' :: '{' ::
        (['A'] ++ '}' :: postB)) := rfl
  have hcleanB : cleanSeg (['B'] : List Char) := by decide
  have hcleanA : cleanSeg (['A'] : List Char) := by decide
  simp only [load_and_expand]
  rw [habsA, hreadA]
  simp only []
  rw [collect_one_input hpreA hpostA hcleanB, hdirA]
  -- the recursive visit to A inside B contributes nothing
  have hvisitedA : expand (c5FS preA postA preB postB) "/".data [] (fuel + 1)
      (ensure_tex_ext (norm_join "/proj".data (pyStrip ['A'])))
      (dirname (ensure_tex_ext (norm_join "/proj".data (pyStrip ['A']))))
      (os_abspath "/".data "/proj/B.tex".data :: ["/proj/A.tex".data]) =
      ([], os_abspath "/".data "/proj/B.tex".data :: ["/proj/A.tex".data]) := by
    rw [hpathA]
    exact expand_visited fuel (by rw [habsA, habsB]; decide)
  -- B's expansion
  have hinnerB : expand (c5FS preA postA preB postB) "/".data [] (fuel + 2)
      "/proj/B.tex".data "/proj".data ["/proj/A.tex".data] =
      (preB ++ [] ++ postB,
        os_abspath "/".data "/proj/B.tex".data :: ["/proj/A.tex".data]) := by
    rw [show fuel + 2 = fuel + 1 + 1 from rfl]
    rw [expand_one_input (fuel + 1)
      (by rw [habsB]; decide)
      (by rw [habsB]; exact hreadB)
      hpreB hpostB hcleanA (by decide) (by decide)
      (by rw [hvisitedA]; decide)]
    rw [hvisitedA]
  -- A's expansion
  have hmainA : expand (c5FS preA postA preB postB) "/".data [] (fuel + 3)
      "/proj/A.tex".data "/proj".data [] =
      (preA ++ (preB ++ [] ++ postB) ++ postA,
        os_abspath "/".data "/proj/B.tex".data :: ["/proj/A.tex".data]) := by
    rw [show fuel + 3 = fuel + 2 + 1 from rfl]
    rw [expand_one_input (fuel + 2)
      (by rw [habsA]; decide)
      (by rw [habsA]; exact hreadA)
      hpreA hpostA hcleanB (by decide) (by decide)
      (by
        rw [hpathB, hdirB, habsA, hinnerB]
        exact cleanSeg_append (cleanSeg_append hpreB (by decide)) hpostB)]
    rw [hpathB, hdirB, habsA, hinnerB]
  rw [hmainA]
  simp

/-- Witness for C5 at concrete contents. -/
theorem claim_C5_witness :
    load_and_expand (c5FS "Apre ".data " Apost".data "Bpre ".data " Bpost".data)
        "/".data 3 "/proj/A.tex".data =
      some ("Apre ".data ++ ("Bpre ".data ++ " Bpost".data) ++ " Apost".data) :=
  claim_C5 0 "Apre ".data " Apost".data "Bpre ".data " Bpost".data
    (by decide) (by decide) (by decide) (by decide)

-- ----------------------
-- Claim C10: repeated (acyclic) inclusion of the same path
-- ----------------------

/-- A main file `M.tex` containing two `\input{common}` directives, plus the
shared file `common.tex` with content `cc`.  No cycle is present. -/
def c10FS (preM mid postM cc : List Char) : FileSys :=
  [("/proj/M.tex".data,
    preM ++ '\\' :: 'i' :: 'n' :: 'p' :: 'u' :: 't' :: '{' ::
      ("common".data ++ '}' ::
        (mid ++ '\\' :: 'i' :: 'n' :: 'p' :: 'u' :: 't' :: '{' ::
          ("common".data ++ '}' :: postM)))),
   ("/proj/common.tex".data, cc)]

/-- C10.  The visited set is shared across the whole expansion: with two
distinct directives resolving to the same absolute path
`/proj/common.tex` and no cycle present, only the first-expanded
occurrence is replaced by the file's text `cc`; the later occurrence is
replaced by the empty string, and no error is raised. -/
theorem claim_C10 (fuel : Nat) (preM mid postM cc : List Char)
    (hpreM : cleanSeg preM) (hmid : cleanSeg mid) (hpostM : cleanSeg postM)
    (hcc : cleanSeg cc) :
    load_and_expand (c10FS preM mid postM cc) "/".data (fuel + 2)
        "/proj/M.tex".data =
      some (preM ++ cc ++ (mid ++ [] ++ postM)) := by
  have habsM : os_abspath "/".data "/proj/M.tex".data = "/proj/M.tex".data := by decide
  have habsC : os_abspath "/".data "/proj/common.tex".data =
      "/proj/common.tex".data := by decide
  have hdirM : dirname "/proj/M.tex".data = "/proj".data := by decide
  have hpathC : ensure_tex_ext (norm_join "/proj".data (pyStrip "common".data)) =
      "/proj/common.tex".data := by decide
  have hdirC : dirname "/proj/common.tex".data = "/proj".data := by decide
  have hreadM : readFile (c10FS preM mid postM cc) "/proj/M.tex".data =
      some (preM ++ '\\' :: 'i' :: 'n' :: 'p' :: 'u' :: 't' :: '{' ::
        ("common".data ++ '}' ::
          (mid ++ '\\' :: 'i' :: 'n' :: 'p' :: 'u' :: 't' :: '{' ::
            ("common".data ++ '}' :: postM)))) := rfl
  have hreadC : readFile (c10FS preM mid postM cc) "/proj/common.tex".data =
      some cc := rfl
  have hname : cleanSeg ("common".data) := by decide
  simp only [load_and_expand]
  rw [habsM, hreadM]
  simp only []
  rw [collect_two_input hpreM hmid hpostM hname hname, hdirM]
  -- first visit to common.tex: its content, path pushed onto the visited set
  have hinner1 : expand (c10FS preM mid postM cc) "/".data [] (fuel + 1)
      (ensure_tex_ext (norm_join "/proj".data (pyStrip "common".data)))
      (dirname (ensure_tex_ext (norm_join "/proj".data (pyStrip "common".data))))
      (os_abspath "/".data "/proj/M.tex".data :: []) =
      (cc, os_abspath "/".data "/proj/common.tex".data ::
        os_abspath "/".data "/proj/M.tex".data :: []) := by
    rw [hpathC, hdirC]
    exact expand_clean fuel (by rw [habsC, habsM]; decide)
      (by rw [habsC]; exact hreadC) hcc
  -- second visit: the path is already in the visited set
  have hinner2 : expand (c10FS preM mid postM cc) "/".data [] (fuel + 1)
      (ensure_tex_ext (norm_join "/proj".data (pyStrip "common".data)))
      (dirname (ensure_tex_ext (norm_join "/proj".data (pyStrip "common".data))))
      (os_abspath "/".data "/proj/common.tex".data ::
        os_abspath "/".data "/proj/M.tex".data :: []) =
      ([], os_abspath "/".data "/proj/common.tex".data ::
        os_abspath "/".data "/proj/M.tex".data :: []) := by
    rw [hpathC]
    exact expand_visited fuel (List.mem_cons_self _ _)
  have hmainM : expand (c10FS preM mid postM cc) "/".data [] (fuel + 2)
      "/proj/M.tex".data "/proj".data [] =
      (preM ++ cc ++ (mid ++ [] ++ postM),
        os_abspath "/".data "/proj/common.tex".data ::
          os_abspath "/".data "/proj/M.tex".data :: []) := by
    rw [show fuel + 2 = fuel + 1 + 1 from rfl]
    rw [expand_two_input (fuel + 1)
      (by rw [habsM]; decide)
      (by rw [habsM]; exact hreadM)
      hpreM hmid hpostM
      hname (by decide) (by decide)
      hname (by decide) (by decide)
      (by rw [hinner1]; exact hcc)
      (by rw [hinner1]; dsimp only; rw [hinner2]; decide)]
    rw [hinner1]
    dsimp only
    rw [hinner2]
  rw [hmainM]

/-- Witness for C10 at concrete contents. -/
theorem claim_C10_witness :
    load_and_expand (c10FS "Mpre ".data " mid ".data " Mpost".data "SHARED".data)
        "/".data 2 "/proj/M.tex".data =
      some ("Mpre ".data ++ "SHARED".data ++
        (" mid ".data ++ [] ++ " Mpost".data)) :=
  claim_C10 0 "Mpre ".data " mid ".data " Mpost".data "SHARED".data
    (by decide) (by decide) (by decide) (by decide)

-- ----------------------
-- Claim C8: chapter detection, slicing, and a text-level block parser
-- ----------------------

/-- Consume `[^\]]*\]` (the optional short-title group of `CHAPTER_RX`),
returning the rest after the closing bracket. -/
def bracketGroup : List Char → Option (List Char)
  | [] => none
  | c :: cs => if c = ']' then some cs else bracketGroup cs

/-- Attempt `CHAPTER_RX` = `\\chapter\*?\s*(?:\[[^\]]*\])?\s*\{([^}]*)\}` at
the current position.  Returns the title group and the rest after the match.
If a `[` follows but never closes, the optional group matches empty and the
mandatory `\{` then fails at the `[`. -/
def tryChapterTitle (s : List Char) : Option (List Char × List Char) :=
  match matchLit "\\chapter".data s with
  | none => none
  | some r1 =>
    let r2 := match r1 with
      | '*' :: t => t
      | _ => r1
    let r3 := skipWs r2
    let r4 := match r3 with
      | '[' :: t =>
        match bracketGroup t with
        | some u => skipWs u
        | none => r3
      | _ => r3
    match r4 with
    | '{' :: t => braceGroupStar t
    | _ => none

/-- `CHAPTER_RX.finditer(tex)` with positions: the list of
`(match start offset, title group)` pairs, scanning left to right and
resuming after each match.  `tex.length` fuel steps always suffice. -/
def chapterAux : Nat → List Char → Nat → List (Nat × List Char)
  | 0, _, _ => []
  | _ + 1, [], _ => []
  | fuel + 1, c :: cs, pos =>
    match tryChapterTitle (c :: cs) with
    | some (title, rest) =>
      (pos, title) :: chapterAux fuel rest (pos + ((c :: cs).length - rest.length))
    | none => chapterAux fuel cs (pos + 1)

/-- One entry of `find_chapter_ranges`: the Python dict
`{"title": ..., "start": ..., "end": ...}` (the `end` key is named `stop`
here because `end` is a keyword). -/
structure ChapterRange where
  title : List Char
  start : Nat
  stop : Nat
  deriving DecidableEq, Repr

/-- Turn the match list into ranges: each chapter runs from its own match
start to the next match's start, or to the document end for the last one;
titles are stripped. -/
def rangesOf : List (Nat × List Char) → Nat → List ChapterRange
  | [], _ => []
  | [(p, t)], n => [⟨pyStrip t, p, n⟩]
  | (p, t) :: (q, u) :: rest, n =>
    ⟨pyStrip t, p, q⟩ :: rangesOf ((q, u) :: rest) n

/-- `find_chapter_ranges(tex)`. -/
def find_chapter_ranges (tex : List Char) : List ChapterRange :=
  rangesOf (chapterAux tex.length tex 0) tex.length

/-- Python slicing `tex[a:b]`. -/
def substr (s : List Char) (a b : Nat) : List Char := (s.drop a).take (b - a)

/-- The separator comment appended after every selected chapter slice in
`App.scan`. -/
def sliceSep : List Char := "\n\n% [chapter-slice separator]\n\n".data

/-- The slicing step of `App.scan`: for each selected `(start, end)` range,
append the slice `expanded[s:e]` and then the separator; concatenate all
parts. -/
def slice_model (tex : List Char) (ranges : List (Nat × Nat)) : List Char :=
  ((ranges.map (fun r => substr tex r.1 r.2 ++ sliceSep)).flatten)

/-- Modelled from the spec: the begin-token of the environment/begin-end
nesting model, `\begin` followed by a braced nonempty name. -/
def tryBeginTok (s : List Char) : Option (List Char × List Char) :=
  match matchLit "\\begin\x7b".data s with
  | some r => braceGroupPlus r
  | none => none

/-- Modelled from the spec: the end-token `\end` with a braced name. -/
def tryEndTok (s : List Char) : Option (List Char × List Char) :=
  match matchLit "\\end\x7b".data s with
  | some r => braceGroupPlus r
  | none => none

/-- Modelled from the spec: the literal text of a begin-token. -/
def beginTok (name : List Char) : List Char :=
  '\\' :: 'b' :: 'e' :: 'g' :: 'i' :: 'n' :: '{' :: (name ++ ['}'])

/-- Modelled from the spec: the literal text of an end-token. -/
def endTok (name : List Char) : List Char :=
  '\\' :: 'e' :: 'n' :: 'd' :: '{' :: (name ++ ['}'])

/-- Modelled from the spec: parse a sequence of blocks in the
environment/begin-end nesting model, stopping (without consuming) at an
end-token or at the end of the text.  Every environment node carries its
full literal source text from its begin-token to its matching end-token
(the walker searches that text for directives).  Mismatched or unclosed
nesting is a structural parse failure (`none`).  Any other character is an
inert non-environment node.  Returns the forest and the unconsumed rest;
`length + 1` fuel steps always suffice. -/
def pForest : Nat → List Char → Option (LForest × List Char)
  | 0, _ => none
  | _ + 1, [] => some (LForest.nil, [])
  | fuel + 1, c :: cs =>
    match tryEndTok (c :: cs) with
    | some _ => some (LForest.nil, c :: cs)
    | none =>
      match tryBeginTok (c :: cs) with
      | some (name, rest1) =>
        match pForest fuel rest1 with
        | none => none
        | some (inner, rest2) =>
          match tryEndTok rest2 with
          | none => none
          | some (name2, rest3) =>
            if name2 = name then
              match pForest fuel rest3 with
              | none => none
              | some (f, rest4) =>
                some (LForest.cons
                  (LNode.env name
                    (beginTok name ++
                      rest1.take (rest1.length - rest2.length) ++ endTok name2)
                    inner) f, rest4)
            else none
      | none =>
        match pForest fuel cs with
        | none => none
        | some (f, rest4) =>
          some (LForest.cons (LNode.other LForest.nil) f, rest4)

/-- Modelled from the spec: the node forest of a whole text.  A leftover
end-token with no open block is a structural parse failure. -/
def texForest (tex : List Char) : Option LForest :=
  match pForest (tex.length + 1) tex with
  | some (f, []) => some f
  | _ => none

/-- The C8 document: a chapter `A` whose theorem block's label group is
still open when chapter `B` begins, then a chapter `C`. -/
def c8Tex : List Char :=
  "\\chapter\x7bA\x7d\\begin\x7btheorem\x7d\\label\x7b\\chapter\x7bB\x7dx\x7d\\end\x7btheorem\x7d\\chapter\x7bC\x7drest".data

/-- The strict subset selecting the first two of the three detected
chapter ranges. -/
def c8Sel : List (Nat × Nat) :=
  ((find_chapter_ranges c8Tex).take 2).map (fun r => (r.start, r.stop))

/-- The sliced text produced by `App.scan` for that selection. -/
def c8Sliced : List Char := slice_model c8Tex c8Sel

/-- The same spans concatenated without separators (the document the claim
compares against). -/
def c8Concat : List Char :=
  ((c8Sel.map (fun r => substr c8Tex r.1 r.2)).flatten)

set_option maxRecDepth 20000 in
/-- C8 fails on `c8Tex`: it has three chapter ranges, the first two are
selected (a strict subset), both the sliced text and the plain
concatenation parse successfully, yet the two pipelines produce different
graphs — the separator comment inserted at the slice boundary lands inside
the straddling theorem block's literal text and changes its extracted
label. -/
theorem claim_C8_counterexample :
    (find_chapter_ranges c8Tex).length = 3 ∧
    (texForest c8Sliced).isSome = true ∧
    (texForest c8Concat).isSome = true ∧
    (texForest c8Sliced).map
        (fun f => build_graph (parse_latex_structure f allCanonical)) ≠
      (texForest c8Concat).map
        (fun f => build_graph (parse_latex_structure f allCanonical)) := by
  decide

/-- Concatenation of node forests. -/
def fappend : LForest → LForest → LForest
  | LForest.nil, g => g
  | LForest.cons n f, g => LForest.cons n (fappend f g)

/-- The walker processes an appended forest left part first. -/
theorem walkForest_append (sel : List Canon) (g : LForest) :
    ∀ (f : LForest) (st : WalkSt),
      walkForest sel st (fappend f g) = walkForest sel (walkForest sel st f) g
  | LForest.nil, st => rfl
  | LForest.cons n f, st => by
    simp only [fappend, walkForest]
    exact walkForest_append sel g f (walk sel st n)

/-- C8, amended to the structural level: a separator that parses to an
inert non-environment node can never merge two adjacent blocks or
contribute a node.  For any selected categories and any two slice forests,
walking the slices' forests with a separator node after each slice yields
exactly the parse result — and so the graph — of the plain concatenation.
The original claim fails only when a selected span is not structurally
self-contained, i.e. a block straddles a slice boundary: the separator
text then lands inside that block's literal source text and can change
its extracted label (see the counterexample). -/
theorem claim_C8_amended (sel : List Canon) (f1 f2 : LForest) :
    parse_latex_structure
        (fappend f1 (LForest.cons (LNode.other LForest.nil)
          (fappend f2 (LForest.cons (LNode.other LForest.nil) LForest.nil)))) sel =
      parse_latex_structure (fappend f1 f2) sel ∧
    build_graph (parse_latex_structure
        (fappend f1 (LForest.cons (LNode.other LForest.nil)
          (fappend f2 (LForest.cons (LNode.other LForest.nil) LForest.nil)))) sel) =
      build_graph (parse_latex_structure (fappend f1 f2) sel) := by
  have h : walkForest sel initSt
      (fappend f1 (LForest.cons (LNode.other LForest.nil)
        (fappend f2 (LForest.cons (LNode.other LForest.nil) LForest.nil)))) =
      walkForest sel initSt (fappend f1 f2) := by
    rw [walkForest_append]
    simp only [walkForest, walk]
    rw [walkForest_append]
    simp only [walkForest, walk]
    rw [walkForest_append]
  have hp : parse_latex_structure
      (fappend f1 (LForest.cons (LNode.other LForest.nil)
        (fappend f2 (LForest.cons (LNode.other LForest.nil) LForest.nil)))) sel =
      parse_latex_structure (fappend f1 f2) sel := by
    simp only [parse_latex_structure]
    rw [h]
  exact ⟨hp, by rw [hp]⟩

end KnowTeX
